import Mathlib

/-!
Verification of the ULZ compression codec (ulz.hpp).

The development is a shallow embedding of the single-header C++ codec:
byte buffers are modelled as total functions from offsets to byte values,
pointer cursors as natural-number offsets, the 32-bit unsigned arithmetic
of the source as natural numbers reduced modulo 2 to the 32, and the int
sentinel NIL = -1 of the hash chains as an integer value.  Every loop of
the source is translated to a structurally recursive function with an
explicit fuel argument; each fuel value passed at the call sites dominates
the iteration count of the corresponding source loop (the decompressor
consumes at least one input byte per iteration, the compressor advances
the input position by at least one per iteration, the chain walk is
bounded by its chain budget, the varint decoder reads at most five
bytes), so the embedded functions compute exactly what the source
computes.
-/

namespace ULZ

/-- Byte-addressed memory: the byte stored at each offset.  Values are
kept below 256 at every store; reads of buffer slack return whatever the
function yields there, matching the uninitialised reads of the source. -/
abbrev Mem := Nat → Nat

def EXCESS : Nat := 16

def WINDOW_BITS : Nat := 17

def WINDOW_SIZE : Nat := 1 <<< WINDOW_BITS

def WINDOW_MASK : Nat := WINDOW_SIZE - 1

def MIN_MATCH : Nat := 4

def HASH_BITS : Nat := 18

def HASH_SIZE : Nat := 1 <<< HASH_BITS

def NIL : Int := -1

/-- Unaligned little-endian 16-bit load. -/
def UnalignedLoad16 (m : Mem) (i : Nat) : Nat :=
  m i + 256 * m (i + 1)

/-- Unaligned little-endian 32-bit load. -/
def UnalignedLoad32 (m : Mem) (i : Nat) : Nat :=
  m i + 256 * m (i + 1) + 65536 * m (i + 2) + 16777216 * m (i + 3)

/-- Unaligned little-endian 16-bit store. -/
def UnalignedStore16 (m : Mem) (i x : Nat) : Mem :=
  fun j => if j = i then x % 256 else if j = i + 1 then x / 256 % 256 else m j

/-- UnalignedCopy32 within one buffer: read the four bytes at `s`, then
store them at `d`.  The load happens before the store, so the function of
the old memory describes all four written bytes. -/
def UnalignedCopy32 (m : Mem) (d s : Nat) : Mem :=
  fun j => if d ≤ j ∧ j < d + 4 then m (s + (j - d)) else m j

/-- UnalignedCopy32 between two distinct buffers (reads from `src`,
writes into `dst`). -/
def UnalignedCopy32X (dst src : Mem) (d s : Nat) : Mem :=
  fun j => if d ≤ j ∧ j < d + 4 then src (s + (j - d)) else dst j

/-- The trailing loop of WildCopy: copies the 8-byte stride at offset `i`
while `i < n`.  Fuel dominates the iteration count because `i` grows by 8
each round. -/
def WildIter (d s n : Nat) : Nat → Nat → Mem → Mem
  | _, 0, m => m
  | i, fuel + 1, m =>
    if i < n then
      WildIter d s n (i + 8) fuel
        (UnalignedCopy32 (UnalignedCopy32 m (d + i) (s + i)) (d + i + 4) (s + i + 4))
    else m

/-- WildCopy within one buffer: two unconditional 4-byte copies, then
8-byte strides while `i < n`.  Writes the `8 * max 1 ((n + 7) / 8)` bytes
starting at `d`. -/
def WildCopy (m : Mem) (d s n : Nat) : Mem :=
  WildIter d s n 8 n (UnalignedCopy32 (UnalignedCopy32 m d s) (d + 4) (s + 4))

/-- The trailing loop of WildCopy between two distinct buffers. -/
def WildIterX (src : Mem) (d s n : Nat) : Nat → Nat → Mem → Mem
  | _, 0, m => m
  | i, fuel + 1, m =>
    if i < n then
      WildIterX src d s n (i + 8) fuel
        (UnalignedCopy32X (UnalignedCopy32X m src (d + i) (s + i)) src (d + i + 4) (s + i + 4))
    else m

/-- WildCopy from `src` into `dst` (the two buffers never alias in the
source: compressor literals go input to output, decompressor literals go
compressed to output). -/
def WildCopyX (dst src : Mem) (d s n : Nat) : Mem :=
  WildIterX src d s n 8 n (UnalignedCopy32X (UnalignedCopy32X dst src d s) src (d + 4) (s + 4))

/-- The byte-by-byte overlap-safe copy loop of the decompressor
(`while (len--) *op++ = *cp++;`). -/
def ByteCopy (m : Mem) (d s : Nat) : Nat → Mem
  | 0 => m
  | n + 1 => ByteCopy (fun j => if j = d then m s else m j) (d + 1) (s + 1) n

/-- The multiplicative hash of the four bytes at `p`:
`(UnalignedLoad32(p) * 0x9E3779B9) >> (32 - HASH_BITS)` in 32-bit
unsigned arithmetic. -/
def Hash32 (m : Mem) (p : Nat) : Nat :=
  UnalignedLoad32 m p * 2654435769 % 4294967296 >>> 14

/-- EncodeMod, collecting the emitted bytes as a list in emission order.
Each loop round with `x >= 128` emits `128 + ((x - 128) & 127)` and
continues with `(x - 128) >> 7`; the final round emits `x` itself.  Fuel
5 covers every 32-bit argument. -/
def EncodeModAux : Nat → Nat → List Nat
  | 0, x => [x % 256]
  | fuel + 1, x =>
    if 128 ≤ x then (128 + (x - 128) % 128) :: EncodeModAux fuel ((x - 128) / 128)
    else [x]

def EncodeMod (x : Nat) : List Nat :=
  EncodeModAux 5 x

/-- DecodeMod: reads bytes at `p`, accumulating `c << i` modulo 2 to the
32 for `i = 0, 7, 14, 21, 28`, stopping at the first byte below 128 or
after five bytes.  Returns the value and the cursor past the bytes
consumed. -/
def DecodeModAux (m : Mem) : Nat → Nat → Nat → Nat → Nat × Nat
  | p, _, x, 0 => (x, p)
  | p, i, x, fuel + 1 =>
    let c := m p
    let x1 := (x + c <<< i) % 4294967296
    if c < 128 then (x1, p + 1) else DecodeModAux m (p + 1) (i + 7) x1 fuel

def DecodeMod (m : Mem) (p : Nat) : Nat × Nat :=
  DecodeModAux m p 0 0 5

/-- Writes one byte (a `U8` store truncates to eight bits). -/
def writeByte (m : Mem) (i b : Nat) : Mem :=
  fun j => if j = i then b % 256 else m j

/-- Writes a list of bytes at consecutive offsets, first byte first. -/
def writeList (m : Mem) (i : Nat) : List Nat → Mem
  | [] => m
  | b :: bs => writeList (writeByte m i b) (i + 1) bs

/-! ## Decompressor

State: input cursor `ip`, output cursor `op` (both offsets from the
start of their buffers), and the output memory.  One loop iteration of
the source is `DecompressStep`; it either ends the call with a result
(the early corrupt-stream returns, value -1) or continues with the next
state.  The literal-only break of the source (`if (ip >= ip_end) break`)
is represented by continuing with `ip = in_len`: the loop then stops and
the final check `ip == ip_end` yields the same result as the break. -/

structure DState where
  ip : Nat
  op : Nat
  out : Mem

inductive DStep where
  | done : Int → Mem → DStep
  | next : DState → DStep

/-- The match half of a decompressor iteration: decode the length
(varint extension when the nibble is 15, with 32-bit wraparound), check
it against the remaining capacity, decode the distance from the tag bit
and the 16-bit field, check it against the output produced so far, and
copy: wide 8-byte strides when `dist >= 4`, byte by byte otherwise. -/
def MatchPhase (inm : Mem) (out_len : Nat) (tag ip op : Nat) (out : Mem) : DStep :=
  let len0 := (tag &&& 15) + MIN_MATCH
  let dm := DecodeMod inm ip
  let len := if len0 = 15 + MIN_MATCH then (len0 + dm.1) % 4294967296 else len0
  let ip1 := if len0 = 15 + MIN_MATCH then dm.2 else ip
  if (out_len : Int) - (op : Int) < (len : Int) then .done (-1) out
  else
    let dist := ((tag &&& 16) <<< 12) + UnalignedLoad16 inm ip1
    let ip2 := ip1 + 2
    if op < dist then .done (-1) out
    else if 4 ≤ dist then .next ⟨ip2, op + len, WildCopy out op (op - dist) len⟩
    else .next ⟨ip2, op + len, ByteCopy out op (op - dist) len⟩

/-- One iteration of the decompressor loop: read the tag; when the run
nibble is non-zero decode and copy the literal run (with the overrun
checks of the source); then the match phase, unless the literal run
ended exactly at the end of the input. -/
def DecompressStep (inm : Mem) (in_len out_len : Nat) (st : DState) : DStep :=
  let tag := inm st.ip
  let ip := st.ip + 1
  if 32 ≤ tag then
    let dm := DecodeMod inm ip
    let run := if tag >>> 5 = 7 then (7 + dm.1) % 4294967296 else tag >>> 5
    let ip2 := if tag >>> 5 = 7 then dm.2 else ip
    if (out_len : Int) - (st.op : Int) < (run : Int) ∨
        (in_len : Int) - (ip2 : Int) < (run : Int) then .done (-1) st.out
    else
      let out2 := WildCopyX st.out inm st.op ip2 run
      let op2 := st.op + run
      let ip3 := ip2 + run
      if in_len ≤ ip3 then .next ⟨ip3, op2, out2⟩
      else MatchPhase inm out_len (inm st.ip) ip3 op2 out2
  else MatchPhase inm out_len tag ip st.op st.out

/-- The decompressor loop.  Every iteration consumes at least the tag
byte, so `ip` grows by at least one per round and fuel `in_len` (from
`Decompress`) dominates the iteration count of the source loop
`while (ip < ip_end)`. -/
def DecompressLoop (inm : Mem) (in_len out_len : Nat) : Nat → DState → Int × Mem
  | 0, st => (if st.ip = in_len then (st.op : Int) else -1, st.out)
  | fuel + 1, st =>
    if st.ip < in_len then
      match DecompressStep inm in_len out_len st with
      | .done r out => (r, out)
      | .next st2 => DecompressLoop inm in_len out_len fuel st2
    else (if st.ip = in_len then (st.op : Int) else -1, st.out)

/-- Decompress: returns the number of output bytes on success, -1 on a
corrupt stream, together with the final output memory. -/
def Decompress (inm : Mem) (in_len : Nat) (out : Mem) (out_len : Nat) : Int × Mem :=
  DecompressLoop inm in_len out_len in_len ⟨0, 0, out⟩

/-! ## Compressor

The hash-chain index: `Head` maps each hash bucket to the most recent
position inserted with that hash (NIL when empty), `Tail` maps each
position modulo the window size to the previous position of the same
chain.  `Tail` is an uninitialised instance field in the source, so the
embedding takes its initial contents as a parameter. -/

structure HC where
  Head : Nat → Int
  Tail : Nat → Int

/-- Inserting position `p`: `Tail[p & WINDOW_MASK] = Head[h];
Head[h] = p` with `h` the hash of the four bytes at `p`.  Since
`WINDOW_SIZE` is a power of two, `p & WINDOW_MASK = p % WINDOW_SIZE`. -/
def HashInsert (inm : Mem) (hc : HC) (p : Nat) : HC :=
  let h := Hash32 inm p
  { Head := fun i => if i = h then (p : Int) else hc.Head i
    Tail := fun i => if i = p % WINDOW_SIZE then hc.Head h else hc.Tail i }

/-- Inserts the `k` consecutive positions `p, p+1, ..., p+k-1`, in that
order: the per-literal insertion, the loop inserting every position
covered by an emitted match, and (iterated from position zero) the whole
history of insertions the compressor has performed. -/
def InsertRange (inm : Mem) (hc : HC) (p : Nat) : Nat → HC
  | 0 => hc
  | k + 1 => InsertRange inm (HashInsert inm hc p) (p + 1) k

/-- The forward match extension loop
`while (len < maxm && in[s+len] == in[p+len]) ++len;`, with fuel
dominating `maxm - len`. -/
def ExtendMatch (inm : Mem) (s p maxm : Nat) : Nat → Nat → Nat
  | len, 0 => len
  | len, fuel + 1 =>
    if len < maxm ∧ inm (s + len) = inm (p + len) then
      ExtendMatch inm s p maxm (len + 1) fuel
    else len

/-- The hash-chain walk of the match finder.  `s` is the current
candidate (an int: NIL terminates), the walk continues while
`s > limit`; at each candidate the cheap guard compares one byte at the
current best length and the 4-byte prefixes, a hit extends the match and
keeps it if strictly longer, reaching `maxm` stops the walk, and the
chain budget `cl` (the source decrements then tests `!--chain_len`)
bounds the number of candidates visited.  The budget is the fuel: the
zero case is unreachable because every call site passes a budget of at
least two. -/
def MatchLoop (inm : Mem) (tl : Nat → Int) (p maxm : Nat) (limit : Int) :
    Int → Nat → Nat → Nat → Nat × Nat
  | _, bl, dist, 0 => (bl, dist)
  | s, bl, dist, cl + 1 =>
    if limit < s then
      if inm (s.toNat + bl) = inm (p + bl) ∧
          UnalignedLoad32 inm s.toNat = UnalignedLoad32 inm p then
        let len := ExtendMatch inm s.toNat p maxm MIN_MATCH maxm
        if bl < len then
          if len = maxm then (len, p - s.toNat)
          else if cl = 0 then (len, p - s.toNat)
          else MatchLoop inm tl p maxm limit (tl (s.toNat % WINDOW_SIZE)) len (p - s.toNat) cl
        else if cl = 0 then (bl, dist)
        else MatchLoop inm tl p maxm limit (tl (s.toNat % WINDOW_SIZE)) bl dist cl
      else if cl = 0 then (bl, dist)
      else MatchLoop inm tl p maxm limit (tl (s.toNat % WINDOW_SIZE)) bl dist cl
    else (bl, dist)

/-- The match finder at position `p`: walk the chain of the bucket of
the four bytes at `p`, starting from best length `MIN_MATCH - 1` and
distance 0, with window floor `limit = max (p - WINDOW_SIZE) NIL`. -/
def FindBest (inm : Mem) (hc : HC) (p maxm max_chain : Nat) : Nat × Nat :=
  MatchLoop inm hc.Tail p maxm (max ((p : Int) - (WINDOW_SIZE : Int)) NIL)
    (hc.Head (Hash32 inm p)) (MIN_MATCH - 1) 0 max_chain

/-- The chain walk of the level-9 lookahead at position `j`: reports
whether some candidate extends to exactly `target` bytes.  The guard
compares the byte at the current outer best length `bl`; the extension
is capped at `target`. -/
def LazyLoop (inm : Mem) (tl : Nat → Int) (j target bl : Nat) (limit : Int) :
    Int → Nat → Bool
  | _, 0 => false
  | s, cl + 1 =>
    if limit < s then
      if inm (s.toNat + bl) = inm (j + bl) ∧
          UnalignedLoad32 inm s.toNat = UnalignedLoad32 inm j then
        if ExtendMatch inm s.toNat j target MIN_MATCH target = target then true
        else if cl = 0 then false
        else LazyLoop inm tl j target bl limit (tl (s.toNat % WINDOW_SIZE)) cl
      else if cl = 0 then false
      else LazyLoop inm tl j target bl limit (tl (s.toNat % WINDOW_SIZE)) cl
    else false

/-- One round of the level-9 lookahead (`i` is 1 or 2): probing position
`p + i` for a match of length exactly `bl + i` discards the current
match (best length becomes 0). -/
def Lookahead1 (inm : Mem) (hc : HC) (p max_chain bl i : Nat) : Nat :=
  let j := p + i
  if LazyLoop inm hc.Tail j (bl + i) bl (max ((j : Int) - (WINDOW_SIZE : Int)) NIL)
      (hc.Head (Hash32 inm j)) max_chain then 0
  else bl

/-- The two-round lookahead loop `for (i = 1; i <= 2 && best_len; ++i)`:
the second round runs only when the first left the match in place. -/
def Lookahead (inm : Mem) (hc : HC) (p max_chain bl : Nat) : Nat :=
  let bl1 := if bl ≠ 0 then Lookahead1 inm hc p max_chain bl 1 else bl
  if bl1 ≠ 0 then Lookahead1 inm hc p max_chain bl1 2 else bl1

/-- Compressor state: hash chains, output memory and cursor, pending
literal-run counter, input position. -/
structure CState where
  hc : HC
  out : Mem
  op : Nat
  run : Nat
  p : Nat

/-- Emitting a match token at input position `p` with pending run `run`,
match length `bl` and distance `dist`: the tag byte packs
`min (bl - MIN_MATCH) 15` and bit 16 of the distance, a run of 7 or more
adds the varint of `run - 7`, the run bytes are wide-copied from the
input, a length nibble of 15 adds the varint of `bl - MIN_MATCH - 15`,
and the low 16 bits of the distance close the token.  `EncodeMod`
collects the varint bytes as a list; writing the list at the cursor
performs the same stores as the pointer loop of the source. -/
def EmitMatch (inm out : Mem) (op p run bl dist : Nat) : Mem × Nat :=
  let len := bl - MIN_MATCH
  let tmp := ((dist >>> 12) &&& 16) + min len 15
  let a : Mem × Nat :=
    if run ≠ 0 then
      let b1 : Mem × Nat :=
        if 7 ≤ run then
          let l := EncodeMod (run - 7)
          (writeList (writeByte out op ((7 <<< 5) + tmp)) (op + 1) l, op + 1 + l.length)
        else (writeByte out op ((run <<< 5) + tmp), op + 1)
      (WildCopyX b1.1 inm b1.2 (p - run) run, b1.2 + run)
    else (writeByte out op tmp, op + 1)
  let c : Mem × Nat :=
    if 15 ≤ len then
      let l := EncodeMod (len - 15)
      (writeList a.1 a.2 l, a.2 + l.length)
    else a
  (UnalignedStore16 c.1 c.2 dist, c.2 + 2)

/-- The literal branch of a compressor iteration: extend the pending
run, insert the position, advance by one. -/
def LiteralStep (inm : Mem) (st : CState) : CState :=
  { st with run := st.run + 1, hc := HashInsert inm st.hc st.p, p := st.p + 1 }

/-- The match branch of a compressor iteration: emit the token, reset
the run, insert every covered position, advance by the match length. -/
def MatchStep (inm : Mem) (st : CState) (bl dist : Nat) : CState :=
  let e := EmitMatch inm st.out st.op st.p st.run bl dist
  { hc := InsertRange inm st.hc st.p bl, out := e.1, op := e.2, run := 0, p := st.p + bl }

/-- One iteration of the compressor loop at position `st.p`: run the
match finder when at least `MIN_MATCH` bytes remain, apply the
short-match suppression (a minimum-length match is dropped when the
pending run has reached `7 + 128`), at level 9 apply the lookahead, then
take the match or the literal branch. -/
def CompressStep (inm : Mem) (in_len level max_chain : Nat) (st : CState) : CState :=
  let maxm := in_len - st.p
  let f := if MIN_MATCH ≤ maxm then FindBest inm st.hc st.p maxm max_chain
    else (MIN_MATCH - 1, 0)
  let bl1 := if f.1 = MIN_MATCH ∧ 7 + 128 ≤ st.run then 0 else f.1
  let bl := if level = 9 ∧ MIN_MATCH ≤ bl1 ∧ bl1 < maxm then
      Lookahead inm st.hc st.p max_chain bl1
    else bl1
  if MIN_MATCH ≤ bl then MatchStep inm st bl f.2 else LiteralStep inm st

/-- The compressor loop.  Each iteration advances `st.p` by at least
one, so fuel `in_len` (from `Compress`) dominates the iteration count of
the source loop `while (p < in_len)`. -/
def CompressLoop (inm : Mem) (in_len level max_chain : Nat) : Nat → CState → CState
  | 0, st => st
  | fuel + 1, st =>
    if st.p < in_len then
      CompressLoop inm in_len level max_chain fuel (CompressStep inm in_len level max_chain st)
    else st

/-- The tail flush after the loop: a pending run is emitted as a
literal-only token (tag, varint of `run - 7` when the run is 7 or more,
then the run bytes); no distance follows. -/
def CompressFlush (inm : Mem) (st : CState) : Mem × Nat :=
  if st.run ≠ 0 then
    let a : Mem × Nat :=
      if 7 ≤ st.run then
        let l := EncodeMod (st.run - 7)
        (writeList (writeByte st.out st.op (7 <<< 5)) (st.op + 1) l, st.op + 1 + l.length)
      else (writeByte st.out st.op (st.run <<< 5), st.op + 1)
    (WildCopyX a.1 inm a.2 (st.p - st.run) st.run, a.2 + st.run)
  else (st.out, st.op)

/-- Compress: `max_chain` is `2^level` below level 8 and the window size
at levels 8 and 9; `Head` starts all-NIL (the initialisation loop of the
source), `Tail` starts at the arbitrary prior contents `tail0` of the
instance field.  Returns the final output memory and the number of bytes
written (`op - out`). -/
def Compress (inm : Mem) (in_len : Nat) (out : Mem) (level : Nat) (tail0 : Nat → Int) :
    Mem × Nat :=
  let max_chain := if level < 8 then 1 <<< level else WINDOW_SIZE
  let st := CompressLoop inm in_len level max_chain in_len
    { hc := { Head := fun _ => NIL, Tail := tail0 }, out := out, op := 0, run := 0, p := 0 }
  CompressFlush inm st

/-! ## Derived notions used by the specifications -/

/-- The exact write extent of a wild copy of `n` bytes: 8 bytes for
`n ≤ 8`, otherwise `n` rounded up to the next multiple of 8. -/
def wext (n : Nat) : Nat := 8 + 8 * ((n - 8 + 7) / 8)

/-- The bytes of memory `m` at offsets `q, q+1, ..., q+r-1`. -/
def memBytes (m : Mem) (q : Nat) : Nat → List Nat
  | 0 => []
  | r + 1 => m q :: memBytes m (q + 1) r

/-- Memory `m` holds the byte list `l` at offset `i`. -/
def HasBytes (m : Mem) (i : Nat) (l : List Nat) : Prop :=
  ∀ j, j < l.length → m (i + j) = l.getD j 0

/-- Sequential 4-byte block copies at offsets `0, 4, ..., 4*(k-1)`:
the normal form of a wild copy used to reason about overlap. -/
def C32Seq (m : Mem) (d s : Nat) : Nat → Mem
  | 0 => m
  | k + 1 => UnalignedCopy32 (C32Seq m d s k) (d + 4 * k) (s + 4 * k)

/-- The stride end: the first offset beyond the writes of the trailing
wild-copy loop when entered at offset `i`. -/
def strideEnd (i n : Nat) : Nat := i + 8 * ((n - i + 7) / 8)

/-- The largest value the biased varint encoder settles within `fuel`
continuation rounds. -/
def Mbound : Nat → Nat
  | 0 => 127
  | f + 1 => 128 * Mbound f + 255

/-- The encoded bytes of a match token with literal run `lits`, match
length `bl` and distance `dist`: exactly the bytes `EmitMatch` stores.
The run of `r` literals is announced in the tag (7 plus a varint of
`r - 7` when `r` is 7 or more), `min (bl - MIN_MATCH) 15` and distance
bit 16 share the tag, a length nibble of 15 is followed by the varint of
the remainder, and the low 16 bits of the distance close the token. -/
def EncTok (lits : List Nat) (bl dist : Nat) : List Nat :=
  (if lits.length ≠ 0 then
    (if 7 ≤ lits.length then
      ((7 <<< 5) + (((dist >>> 12) &&& 16) + min (bl - MIN_MATCH) 15)) ::
        EncodeMod (lits.length - 7)
     else [(lits.length <<< 5) + (((dist >>> 12) &&& 16) + min (bl - MIN_MATCH) 15)]) ++ lits
   else [((dist >>> 12) &&& 16) + min (bl - MIN_MATCH) 15]) ++
  (if 15 ≤ bl - MIN_MATCH then EncodeMod (bl - MIN_MATCH - 15) else []) ++
  [dist % 256, dist / 256 % 256]

/-- The encoded bytes of the terminal literal-only token: exactly the
bytes `CompressFlush` stores for a pending run. -/
def EncFinal (lits : List Nat) : List Nat :=
  (if 7 ≤ lits.length then (7 <<< 5) :: EncodeMod (lits.length - 7)
   else [lits.length <<< 5]) ++ lits

/-- A token of the compressed stream: a literal run length, a match
length (`bl = 0` marks the terminal literal-only token) and a match
distance. -/
structure Tok where
  run : Nat
  bl : Nat
  dist : Nat

/-- The encoded bytes of one token whose literals are the input bytes
starting at `q`. -/
def TokBytes (b : Mem) (q : Nat) (t : Tok) : List Nat :=
  if t.bl = 0 then EncFinal (memBytes b q t.run) else EncTok (memBytes b q t.run) t.bl t.dist

/-- The encoded bytes of a token list covering the input from `q`. -/
def StreamBytes (b : Mem) : Nat → List Tok → List Nat
  | _, [] => []
  | q, t :: ts => TokBytes b q t ++ StreamBytes b (q + t.run + t.bl) ts

/-- Well-formedness of a token list against input `b` of length `n`,
starting at position `q`: every match is at least `MIN_MATCH` long,
its distance reaches neither before the output start nor beyond the
window, the referenced bytes repeat the matched bytes, and a terminal
literal-only token is last and non-empty.  These are the facts the
match finder guarantees for every emitted token. -/
inductive StreamOK (b : Mem) (n : Nat) : Nat → List Tok → Prop where
  | nil : StreamOK b n n []
  | fin : ∀ q r, 1 ≤ r → q + r = n → StreamOK b n q [⟨r, 0, 0⟩]
  | tok : ∀ q (t : Tok) (ts : List Tok),
      MIN_MATCH ≤ t.bl →
      1 ≤ t.dist → t.dist ≤ q + t.run → t.dist < 131072 →
      (∀ j, j < t.bl → b (q + t.run - t.dist + j) = b (q + t.run + j)) →
      q + t.run + t.bl ≤ n →
      StreamOK b n (q + t.run + t.bl) ts →
      StreamOK b n q (t :: ts)

/-- `k` steps of the hash-chain walk `s = Tail[s & WINDOW_MASK]`. -/
def WalkN (tl : Nat → Int) : Int → Nat → Int
  | s, 0 => s
  | s, k + 1 => WalkN tl (tl (s.toNat % WINDOW_SIZE)) k

/-- The positions a chain walk visits before it first reaches the
window floor, newest first: the candidates the match finder would
consider (ignoring the chain budget). -/
def ChainSeen (tl : Nat → Int) (floor : Int) : Int → Nat → List Int
  | _, 0 => []
  | s, fuel + 1 =>
    if floor < s then s :: ChainSeen tl floor (tl (s.toNat % WINDOW_SIZE)) fuel else []

/-- Exactness of the hash-chain state after inserting positions
`0, ..., p-1` in order: every head is the newest position of its bucket
(`NIL` when the bucket is empty), and every in-window tail link points
to the newest earlier position of the same bucket (`NIL` when there is
none). -/
def ChainExact (inm : Mem) (hc : HC) (p : Nat) : Prop :=
  (∀ h : Nat, (∀ s, s < p → Hash32 inm s = h → (s : Int) ≤ hc.Head h) ∧
    (hc.Head h = NIL ∨ ∃ s, s < p ∧ Hash32 inm s = h ∧ hc.Head h = (s : Int))) ∧
  (∀ s, s < p → p ≤ s + WINDOW_SIZE →
    (∀ t, t < s → Hash32 inm t = Hash32 inm s → (t : Int) ≤ hc.Tail (s % WINDOW_SIZE)) ∧
    hc.Tail (s % WINDOW_SIZE) < (s : Int) ∧
    (hc.Tail (s % WINDOW_SIZE) = NIL ∨
      ∃ t, t < s ∧ Hash32 inm t = Hash32 inm s ∧ hc.Tail (s % WINDOW_SIZE) = (t : Int)))

/-- Soundness of the hash-chain state at position `p`: every bucket head
is an inserted position (below `p`) or NIL, and for every in-window
position `s` the tail slot of `s` was last written at the insertion of
`s` itself, so it points strictly below `s`.  Slots of positions at or
below the window floor may hold junk; the walk never reads them. -/
def HCSound (hc : HC) (p : Nat) : Prop :=
  (∀ h, hc.Head h < (p : Int)) ∧
  (∀ s : Nat, s < p → p ≤ s + WINDOW_SIZE → hc.Tail (s % WINDOW_SIZE) < (s : Int))

/-- Validity of a candidate best match at position `p`. -/
def GoodMatch (inm : Mem) (p maxm : Nat) (bl dist : Nat) : Prop :=
  MIN_MATCH ≤ bl →
    bl ≤ maxm ∧ 1 ≤ dist ∧ dist ≤ p ∧ dist < WINDOW_SIZE ∧
    ∀ j, j < bl → inm (p - dist + j) = inm (p + j)

/-- The all-zero memory. -/
def zeroMem : Mem := fun _ => 0

/-- An all-NIL initial `Tail` table. -/
def nilTail : Nat → Int := fun _ => NIL

/-- A two-byte compressed stream: a one-literal run token whose wild
copy spills past a declared capacity of one. -/
def exC2In : Mem := fun i => [32, 65].getD i 0

/-- The same two-byte stream with a different byte in the slack past the
declared input end. -/
def exC2In2 : Mem := fun i => [32, 65, 9].getD i 0

/-- An output buffer filled with the value 7. -/
def exC2Out : Mem := fun _ => 7

/-- A hand-crafted stream whose first token claims a match (no literal
run) with distance 1 and no preceding output. -/
def c9In : Mem := fun i => [0, 1, 0].getD i 0

/-- A hand-crafted stream whose single token carries one literal and a
match of length 4 with encoded distance 0. -/
def c10In : Mem := fun i => [32, 65, 0, 0].getD i 0

/-- Roundtrip example input: four repetitions of 1, 2, 3. -/
def rtIn : Mem := fun i => [1, 2, 3, 1, 2, 3, 1, 2, 3, 1, 2, 3].getD i 0

/-- Level-9 lookahead example input: a 5-byte string, a stop byte, a
6-byte string, a stop byte, then the 5-byte string continued like the
6-byte string. -/
def c7In : Mem := fun i =>
  [1, 2, 3, 4, 5, 50, 2, 3, 4, 5, 6, 7, 51, 1, 2, 3, 4, 5, 6, 7].getD i 0

/-- The initial compressor state over an all-NIL `Tail`. -/
def c7Init : CState := ⟨⟨fun _ => NIL, nilTail⟩, zeroMem, 0, 0, 0⟩

/-- The compressor state reached at position 13 of `c7In` (all chain
insertions for positions 0-12 performed, pending run 3). -/
def c7St : CState := ⟨InsertRange c7In ⟨fun _ => NIL, nilTail⟩ 0 13, zeroMem, 9, 3, 13⟩

/-! ## Basic lemmas on writes and copies -/

theorem WINDOW_SIZE_eq : WINDOW_SIZE = 131072 := rfl

theorem wext_ge (n : Nat) : n ≤ wext n := by
  unfold wext
  have h1 := Nat.div_add_mod (n - 8 + 7) 8
  have h2 : (n - 8 + 7) % 8 < 8 := Nat.mod_lt _ (by norm_num)
  omega

theorem wext_le (n : Nat) (h : 1 ≤ n) : wext n ≤ n + 7 := by
  unfold wext
  have h1 := Nat.div_add_mod (n - 8 + 7) 8
  have h2 : (n - 8 + 7) % 8 < 8 := Nat.mod_lt _ (by norm_num)
  omega

theorem writeByte_ne (m : Mem) (i b j : Nat) (h : j ≠ i) : writeByte m i b j = m j := by
  simp [writeByte, h]

theorem writeByte_eq (m : Mem) (i b : Nat) : writeByte m i b i = b % 256 := by
  simp [writeByte]

theorem writeList_out (m : Mem) (l : List Nat) (i j : Nat)
    (h : j < i ∨ i + l.length ≤ j) : writeList m i l j = m j := by
  induction l generalizing m i with
  | nil => rfl
  | cons b bs ih =>
    simp only [writeList]
    rw [ih]
    · apply writeByte_ne
      simp only [List.length_cons] at h
      omega
    · simp only [List.length_cons] at h
      omega

theorem writeList_get (m : Mem) (l : List Nat) (i j : Nat) (h : j < l.length) :
    writeList m i l (i + j) = l.getD j 0 % 256 := by
  induction l generalizing m i j with
  | nil => simp at h
  | cons b bs ih =>
    simp only [writeList]
    cases j with
    | zero =>
      rw [writeList_out]
      · simp [writeByte]
      · left; omega
    | succ j' =>
      have : i + (j' + 1) = (i + 1) + j' := by omega
      rw [this, ih]
      · rfl
      · simpa using h

theorem unalignedCopy32X_out (dst src : Mem) (d s j : Nat)
    (h : j < d ∨ d + 4 ≤ j) : UnalignedCopy32X dst src d s j = dst j := by
  simp only [UnalignedCopy32X]
  rw [if_neg]
  omega

theorem unalignedCopy32X_in (dst src : Mem) (d s j : Nat) (h : d ≤ j) (h2 : j < d + 4) :
    UnalignedCopy32X dst src d s j = src (s + (j - d)) := by
  simp only [UnalignedCopy32X]
  rw [if_pos ⟨h, h2⟩]

/-- The stride end: the first unwritten offset of the trailing loop of a
wild copy entered at offset `i`. -/
theorem strideEnd_step (i n : Nat) (h : i < n) : strideEnd (i + 8) n = strideEnd i n := by
  unfold strideEnd
  have h1 : n - i = (n - (i + 8)) + 8 ∨ (n - i ≤ 8 ∧ n - (i + 8) = 0) := by omega
  rcases h1 with h1 | ⟨h1, h2⟩
  · rw [h1]
    have : n - (i + 8) + 8 + 7 = (n - (i + 8) + 7) + 1 * 8 := by ring
    rw [this, Nat.add_mul_div_right _ _ (by norm_num : 0 < 8)]
    ring
  · rw [h2]
    have h3 : (n - i + 7) / 8 = 1 := by
      apply Nat.div_eq_of_lt_le <;> omega
    simp [h3]

theorem strideEnd_stop (i n : Nat) (h : ¬ i < n) : strideEnd i n = i := by
  unfold strideEnd
  have : n - i = 0 := by omega
  simp [this]

theorem wildIterX_spec (src : Mem) (d s n : Nat) :
    ∀ fuel i m, n ≤ i + 8 * fuel →
      ∀ j, WildIterX src d s n i fuel m j =
        if d + i ≤ j ∧ j < d + strideEnd i n then src (s + (j - d)) else m j := by
  intro fuel
  induction fuel with
  | zero =>
    intro i m h j
    rw [strideEnd_stop i n (by omega)]
    simp only [WildIterX]
    rw [if_neg (by omega)]
  | succ fuel ih =>
    intro i m h j
    simp only [WildIterX]
    by_cases hc : i < n
    · rw [if_pos hc, ih (i + 8) _ (by omega) j, strideEnd_step i n hc]
      by_cases h1 : d + (i + 8) ≤ j ∧ j < d + strideEnd i n
      · rw [if_pos h1, if_pos (by omega)]
      · rw [if_neg h1]
        by_cases h2 : d + i ≤ j ∧ j < d + strideEnd i n
        · have hj8 : j < d + i + 8 := by
            rcases h2 with ⟨h2a, h2b⟩
            by_contra hcon
            exact h1 ⟨by omega, h2b⟩
          rw [if_pos h2]
          by_cases h3 : j < d + i + 4
          · rw [unalignedCopy32X_out _ _ _ _ _ (by omega),
              unalignedCopy32X_in _ _ _ _ _ (by omega) (by omega)]
            congr 1
            omega
          · rw [unalignedCopy32X_in _ _ _ _ _ (by omega) (by omega)]
            congr 1
            omega
        · rw [if_neg h2]
          have hlow : j < d + i ∨ d + strideEnd i n ≤ j := by
            rcases Nat.lt_or_ge j (d + i) with hx | hx
            · left; exact hx
            · right
              by_contra hcon
              exact h2 ⟨hx, by omega⟩
          have hse : i + 8 ≤ strideEnd i n := by
            unfold strideEnd
            have : 1 ≤ (n - i + 7) / 8 := by
              apply Nat.le_div_iff_mul_le (by norm_num) |>.2
              omega
            omega
          rw [unalignedCopy32X_out, unalignedCopy32X_out]
          · omega
          · omega
    · rw [if_neg hc, strideEnd_stop i n hc]
      rw [if_neg]
      omega

theorem wext_eq_strideEnd (n : Nat) : wext n = strideEnd 8 n := rfl

theorem wildCopyX_spec (dst src : Mem) (d s n j : Nat) :
    WildCopyX dst src d s n j =
      if d ≤ j ∧ j < d + wext n then src (s + (j - d)) else dst j := by
  unfold WildCopyX
  rw [wildIterX_spec src d s n n 8 _ (by omega) j]
  have h8 : 8 ≤ wext n := by unfold wext; omega
  rw [wext_eq_strideEnd] at *
  by_cases h1 : d + 8 ≤ j ∧ j < d + strideEnd 8 n
  · rw [if_pos h1, if_pos (by omega)]
  · rw [if_neg h1]
    by_cases h2 : d ≤ j ∧ j < d + strideEnd 8 n
    · have hj8 : j < d + 8 := by omega
      rw [if_pos h2]
      by_cases h3 : j < d + 4
      · rw [unalignedCopy32X_out _ _ _ _ _ (by omega),
          unalignedCopy32X_in _ _ _ _ _ (by omega) (by omega)]
      · rw [unalignedCopy32X_in _ _ _ _ _ (by omega) (by omega)]
        congr 1
        omega
    · rw [if_neg h2, unalignedCopy32X_out, unalignedCopy32X_out] <;> omega

theorem unalignedCopy32_out (m : Mem) (d s j : Nat)
    (h : j < d ∨ d + 4 ≤ j) : UnalignedCopy32 m d s j = m j := by
  simp only [UnalignedCopy32]
  rw [if_neg]
  omega

theorem unalignedCopy32_in (m : Mem) (d s j : Nat) (h : d ≤ j) (h2 : j < d + 4) :
    UnalignedCopy32 m d s j = m (s + (j - d)) := by
  simp only [UnalignedCopy32]
  rw [if_pos ⟨h, h2⟩]

theorem c32Seq_out (m : Mem) (d s : Nat) :
    ∀ k j, (j < d ∨ d + 4 * k ≤ j) → C32Seq m d s k j = m j := by
  intro k
  induction k with
  | zero => intro j _; rfl
  | succ k ih =>
    intro j h
    simp only [C32Seq]
    rw [unalignedCopy32_out _ _ _ _ (by omega), ih j (by omega)]

/-- Sequential 4-byte block copies with overlap distance at least 4
produce the periodic extension of the source: every copied byte equals
the original byte one period back. -/
theorem c32Seq_periodic (m : Mem) (s dist : Nat) (hd : 4 ≤ dist) :
    ∀ k j, j < 4 * k → C32Seq m (s + dist) s k (s + dist + j) = m (s + j % dist) := by
  intro k
  induction k with
  | zero => intro j h; omega
  | succ k ih =>
    intro j h
    simp only [C32Seq]
    by_cases hj : j < 4 * k
    · rw [unalignedCopy32_out _ _ _ _ (by omega)]
      exact ih j hj
    · have hj1 : 4 * k ≤ j ∧ j < 4 * k + 4 := by omega
      rw [unalignedCopy32_in _ _ _ _ (by omega) (by omega)]
      have harg : s + 4 * k + (s + dist + j - (s + dist + 4 * k)) = s + j := by omega
      rw [harg]
      by_cases hw : j < dist
      · rw [c32Seq_out _ _ _ _ _ (by omega), Nat.mod_eq_of_lt hw]
      · have : s + j = s + dist + (j - dist) := by omega
        rw [this, ih (j - dist) (by omega)]
        congr 1
        have : j % dist = (j - dist) % dist := by
          conv_lhs => rw [show j = j - dist + dist by omega]
          rw [Nat.add_mod_right]
        omega

/-- The trailing wild-copy loop, entered after the two head blocks,
performs exactly the remaining sequential 4-byte block copies. -/
theorem wildIter_c32Seq (m : Mem) (d s n : Nat) :
    ∀ fuel i, n ≤ i + 8 * fuel → i % 8 = 0 →
      WildIter d s n i fuel (C32Seq m d s (i / 4)) = C32Seq m d s (strideEnd i n / 4) := by
  intro fuel
  induction fuel with
  | zero =>
    intro i h hi
    rw [strideEnd_stop i n (by omega)]
    rfl
  | succ fuel ih =>
    intro i h hi
    simp only [WildIter]
    by_cases hc : i < n
    · rw [if_pos hc, ← strideEnd_step i n hc]
      have h4 : i / 4 * 4 = i := by omega
      have e1 : UnalignedCopy32 (UnalignedCopy32 (C32Seq m d s (i / 4)) (d + i) (s + i))
          (d + i + 4) (s + i + 4) = C32Seq m d s ((i + 8) / 4) := by
        have h1 : (i + 8) / 4 = (i / 4 + 1) + 1 := by omega
        rw [h1]
        simp only [C32Seq]
        have e2 : 4 * (i / 4) = i := by omega
        have e3 : 4 * (i / 4 + 1) = i + 4 := by omega
        rw [e2, e3]
        simp only [Nat.add_assoc]
      rw [e1, ih (i + 8) (by omega) (by omega)]
    · rw [if_neg hc, strideEnd_stop i n hc]

/-- A wild copy is the sequence of its 4-byte block copies. -/
theorem wildCopy_c32Seq (m : Mem) (d s n : Nat) :
    WildCopy m d s n = C32Seq m d s (wext n / 4) := by
  unfold WildCopy
  have e1 : UnalignedCopy32 (UnalignedCopy32 m d s) (d + 4) (s + 4) = C32Seq m d s (8 / 4) := by
    simp only [C32Seq]
    norm_num
  rw [e1, show (8 : Nat) / 4 = 8 / 4 from rfl]
  rw [wildIter_c32Seq m d s n n 8 (by omega) (by norm_num)]
  rfl

theorem wildCopy_out (m : Mem) (d s n j : Nat)
    (h : j < d ∨ d + wext n ≤ j) : WildCopy m d s n j = m j := by
  rw [wildCopy_c32Seq]
  apply c32Seq_out
  have h4 : 4 ∣ wext n := by unfold wext; omega
  rcases h with h | h
  · left; exact h
  · right
    have : 4 * (wext n / 4) = wext n := by omega
    omega

/-- A wild copy with overlap distance at least 4 writes the periodic
extension of the bytes before the destination, over its whole write
extent. -/
theorem wildCopy_periodic (m : Mem) (s dist n j : Nat) (hd : 4 ≤ dist) (h : j < wext n) :
    WildCopy m (s + dist) s n (s + dist + j) = m (s + j % dist) := by
  rw [wildCopy_c32Seq]
  apply c32Seq_periodic m s dist hd
  have h4 : 4 ∣ wext n := by unfold wext; omega
  omega

theorem byteCopy_out (m : Mem) (d s : Nat) :
    ∀ n j, (j < d ∨ d + n ≤ j) → ByteCopy m d s n j = m j := by
  intro n
  induction n generalizing m d s with
  | zero => intro j _; rfl
  | succ n ih =>
    intro j h
    simp only [ByteCopy]
    rw [ih _ _ _ j (by omega)]
    rw [if_neg (by omega)]

/-- The byte-by-byte forward copy writes the periodic extension of the
bytes before the destination, for every overlap distance (at distance 0
the copy rewrites each byte with itself). -/
theorem byteCopy_periodic (m : Mem) (s dist : Nat) :
    ∀ n j, j < n → ByteCopy m (s + dist) s n (s + dist + j) = m (s + j % dist) := by
  intro n
  induction n generalizing m s with
  | zero => intro j h; omega
  | succ n ih =>
    intro j h
    simp only [ByteCopy]
    cases j with
    | zero =>
      rw [byteCopy_out _ _ _ _ _ (by omega)]
      simp
    | succ j' =>
      have e1 : s + dist + (j' + 1) = (s + 1) + dist + j' := by omega
      have e2 : s + dist + 1 = (s + 1) + dist := by omega
      rw [e1, e2, ih _ _ j' (by omega)]
      rcases Nat.eq_zero_or_pos dist with h0 | h0
      · subst h0
        rw [if_neg (by omega)]
        congr 1
        omega
      · have hlt : j' % dist < dist := Nat.mod_lt _ h0
        by_cases hj : j' % dist = dist - 1
        · rw [if_pos (by omega)]
          have hmod := Nat.div_add_mod j' dist
          have hmul : j' + 1 = dist * (j' / dist + 1) := by
            rw [Nat.mul_add, Nat.mul_one]
            omega
          rw [hmul, Nat.mul_mod_right]
          simp
        · have hd2 : 2 ≤ dist := by omega
          have hsucc : (j' + 1) % dist = j' % dist + 1 := by
            rw [Nat.add_mod, Nat.mod_eq_of_lt (by omega : (1 : Nat) < dist),
              Nat.mod_eq_of_lt (by omega)]
          rw [if_neg (by omega), hsucc]
          congr 1
          omega

/-! ## Varint lemmas -/

theorem encodeModAux_step (f x : Nat) :
    EncodeModAux (f + 1) x =
      if 128 ≤ x then (128 + (x - 128) % 128) :: EncodeModAux f ((x - 128) / 128)
      else [x] := rfl

theorem decodeModAux_step (m : Mem) (p i x fuel : Nat) :
    DecodeModAux m p i x (fuel + 1) =
      if m p < 128 then ((x + m p <<< i) % 4294967296, p + 1)
      else DecodeModAux m (p + 1) (i + 7) ((x + m p <<< i) % 4294967296) fuel := rfl

theorem encodeModAux_sufficient (f : Nat) :
    ∀ x, x ≤ Mbound f → EncodeModAux (f + 1) x = EncodeModAux f x := by
  induction f with
  | zero =>
    intro x h
    simp only [Mbound] at h
    rw [encodeModAux_step, if_neg (by omega)]
    simp only [EncodeModAux]
    rw [Nat.mod_eq_of_lt (by omega)]
  | succ f ih =>
    intro x h
    rw [encodeModAux_step (f + 1) x, encodeModAux_step f x]
    by_cases hx : 128 ≤ x
    · rw [if_pos hx, if_pos hx, ih _ (by
        simp only [Mbound] at h
        omega)]
    · rw [if_neg hx, if_neg hx]

theorem encodeModAux_length (f : Nat) : ∀ x, (EncodeModAux f x).length ≤ f + 1 := by
  induction f with
  | zero => intro x; simp [EncodeModAux]
  | succ f ih =>
    intro x
    rw [encodeModAux_step]
    by_cases hx : 128 ≤ x
    · rw [if_pos hx]
      simpa using ih ((x - 128) / 128)
    · rw [if_neg hx]
      simp

theorem encodeModAux_pos (f x : Nat) : 1 ≤ (EncodeModAux f x).length := by
  cases f with
  | zero => simp [EncodeModAux]
  | succ f =>
    rw [encodeModAux_step]
    by_cases hx : 128 ≤ x
    · rw [if_pos hx]; simp
    · rw [if_neg hx]; simp

theorem encodeModAux_bytes (f : Nat) : ∀ x, ∀ b ∈ EncodeModAux f x, b < 256 := by
  induction f with
  | zero =>
    intro x b hb
    simp only [EncodeModAux, List.mem_singleton] at hb
    subst hb
    exact Nat.mod_lt _ (by norm_num)
  | succ f ih =>
    intro x b hb
    rw [encodeModAux_step] at hb
    by_cases hx : 128 ≤ x
    · rw [if_pos hx] at hb
      rcases List.mem_cons.1 hb with h | h
      · have := Nat.mod_lt (x - 128) (show 0 < 128 by norm_num)
        omega
      · exact ih _ _ h
    · rw [if_neg hx] at hb
      simp only [List.mem_singleton] at hb
      omega

theorem Mbound4_ge : (4294967296 : Nat) ≤ Mbound 4 + 1 := by decide

theorem Mbound5_ge : (4294967296 : Nat) ≤ Mbound 5 + 1 := by decide

/-- EncodeMod emits at most five bytes for every 32-bit value. -/
theorem encodeMod_length (x : Nat) (h : x < 4294967296) : (EncodeMod x).length ≤ 5 := by
  unfold EncodeMod
  rw [encodeModAux_sufficient 4 x (by have := Mbound4_ge; omega)]
  exact encodeModAux_length 4 x

theorem encodeMod_bytes (x : Nat) : ∀ b ∈ EncodeMod x, b < 256 :=
  encodeModAux_bytes 5 x

/-- Decoding the biased varint: the payload bias of every continuation
byte cancels against the carry of the next digit, so the plain sum
`c << (7 i)` of the decoder reconstructs the encoded value. -/
theorem decodeModAux_encodeModAux :
    ∀ f x acc i fuel2 (m : Mem) (p : Nat),
      x ≤ Mbound f →
      HasBytes m p (EncodeModAux f x) →
      (EncodeModAux f x).length ≤ fuel2 →
      acc + x * 2 ^ i < 4294967296 →
      DecodeModAux m p i acc fuel2 = (acc + x * 2 ^ i, p + (EncodeModAux f x).length) := by
  intro f
  induction f with
  | zero =>
    intro x acc i fuel2 m p hx hm hlen hacc
    simp only [Mbound] at hx
    have henc : EncodeModAux 0 x = [x] := by
      simp only [EncodeModAux]
      rw [Nat.mod_eq_of_lt (by omega)]
    rw [henc] at hm hlen ⊢
    have hb : m (p + 0) = x := by
      have := hm 0 (by simp)
      simpa using this
    simp only [Nat.add_zero] at hb
    cases fuel2 with
    | zero => simp at hlen
    | succ fuel2 =>
      rw [decodeModAux_step, hb, if_pos (by omega : x < 128)]
      rw [Nat.shiftLeft_eq, Nat.mod_eq_of_lt (by omega)]
      simp
  | succ f ih =>
    intro x acc i fuel2 m p hx hm hlen hacc
    by_cases hge : 128 ≤ x
    · have henc : EncodeModAux (f + 1) x =
          (128 + (x - 128) % 128) :: EncodeModAux f ((x - 128) / 128) := by
        rw [encodeModAux_step, if_pos hge]
      rw [henc] at hm hlen ⊢
      have hb : m (p + 0) = 128 + (x - 128) % 128 := by
        have := hm 0 (by simp)
        simpa using this
      simp only [Nat.add_zero] at hb
      cases fuel2 with
      | zero => simp at hlen
      | succ fuel2 =>
        rw [decodeModAux_step, hb, if_neg (by omega)]
        have hble : 128 + (x - 128) % 128 ≤ x := by
          have := Nat.mod_le (x - 128) 128
          omega
        have hnowrap : acc + (128 + (x - 128) % 128) * 2 ^ i < 4294967296 := by
          have : (128 + (x - 128) % 128) * 2 ^ i ≤ x * 2 ^ i :=
            Nat.mul_le_mul_right _ hble
          omega
        rw [Nat.shiftLeft_eq, Nat.mod_eq_of_lt hnowrap]
        have hrest : HasBytes m (p + 1) (EncodeModAux f ((x - 128) / 128)) := by
          intro j hj
          have := hm (j + 1) (by simpa using Nat.succ_lt_succ hj)
          simpa [Nat.add_assoc, Nat.add_comm 1 j] using this
        have hx2 : (x - 128) / 128 ≤ Mbound f := by
          simp only [Mbound] at hx
          have hdm := Nat.div_add_mod (x - 128) 128
          have h2 : (x - 128) % 128 < 128 := Nat.mod_lt _ (by norm_num)
          omega
        have hkey : acc + (128 + (x - 128) % 128) * 2 ^ i +
            (x - 128) / 128 * 2 ^ (i + 7) = acc + x * 2 ^ i := by
          have e1 : (2 : Nat) ^ (i + 7) = 2 ^ i * 128 := by
            rw [pow_add]
            norm_num
          have hdm := Nat.div_add_mod (x - 128) 128
          calc acc + (128 + (x - 128) % 128) * 2 ^ i + (x - 128) / 128 * 2 ^ (i + 7)
              = acc + (128 + (x - 128) % 128 + 128 * ((x - 128) / 128)) * 2 ^ i := by
                rw [e1]; ring
            _ = acc + x * 2 ^ i := by
                rw [show 128 + (x - 128) % 128 + 128 * ((x - 128) / 128) = x from by omega]
        rw [ih _ _ _ _ _ _ hx2 hrest (by simpa using hlen) (by omega), hkey]
        simp only [List.length_cons]
        refine Prod.ext rfl ?_
        simp
        omega
    · have henc : EncodeModAux (f + 1) x = [x] := by
        rw [encodeModAux_step, if_neg hge]
      rw [henc] at hm hlen ⊢
      have hb : m (p + 0) = x := by
        have := hm 0 (by simp)
        simpa using this
      simp only [Nat.add_zero] at hb
      cases fuel2 with
      | zero => simp at hlen
      | succ fuel2 =>
        rw [decodeModAux_step, hb, if_pos (by omega : x < 128)]
        rw [Nat.shiftLeft_eq, Nat.mod_eq_of_lt (by omega)]
        simp

/-- DecodeMod applied to the bytes EncodeMod emitted consumes exactly
those bytes and returns the encoded value, for every 32-bit value. -/
theorem decodeMod_encodeMod (x : Nat) (h : x < 4294967296) (m : Mem) (p : Nat)
    (hm : HasBytes m p (EncodeMod x)) :
    DecodeMod m p = (x, p + (EncodeMod x).length) := by
  unfold DecodeMod EncodeMod at *
  have hx : x ≤ Mbound 5 := by
    have hb := Mbound5_ge
    omega
  have hl : (EncodeModAux 5 x).length ≤ 5 := by
    rw [encodeModAux_sufficient 4 x (by have := Mbound4_ge; omega)]
    exact encodeModAux_length 4 x
  have := decodeModAux_encodeModAux 5 x 0 0 5 m p hx hm hl (by simpa using h)
  simpa using this

/-! ## HasBytes lemmas -/

theorem hasBytes_cons (m : Mem) (i b : Nat) (bs : List Nat) :
    HasBytes m i (b :: bs) ↔ m i = b ∧ HasBytes m (i + 1) bs := by
  constructor
  · intro h
    refine ⟨by simpa using h 0 (by simp), fun j hj => ?_⟩
    have := h (j + 1) (by simpa using Nat.succ_lt_succ hj)
    simpa [Nat.add_assoc, Nat.add_comm 1 j] using this
  · rintro ⟨h1, h2⟩ j hj
    cases j with
    | zero => simpa using h1
    | succ j' =>
      have := h2 j' (by simpa using Nat.lt_of_succ_lt_succ hj)
      simpa [Nat.add_assoc, Nat.add_comm 1 j'] using this

theorem hasBytes_nil (m : Mem) (i : Nat) : HasBytes m i [] := by
  intro j hj
  simp at hj

theorem hasBytes_append (m : Mem) (i : Nat) (l1 l2 : List Nat) :
    HasBytes m i (l1 ++ l2) ↔ HasBytes m i l1 ∧ HasBytes m (i + l1.length) l2 := by
  induction l1 generalizing i with
  | nil => simp [hasBytes_nil]
  | cons b bs ih =>
    simp only [List.cons_append, hasBytes_cons, ih, List.length_cons]
    constructor
    · rintro ⟨h1, h2, h3⟩
      exact ⟨⟨h1, h2⟩, by
        have : i + (bs.length + 1) = i + 1 + bs.length := by omega
        rw [this]
        exact h3⟩
    · rintro ⟨⟨h1, h2⟩, h3⟩
      refine ⟨h1, h2, ?_⟩
      have : i + 1 + bs.length = i + (bs.length + 1) := by omega
      rw [this]
      exact h3

theorem hasBytes_writeList (m : Mem) (i : Nat) (l : List Nat) (hl : ∀ b ∈ l, b < 256) :
    HasBytes (writeList m i l) i l := by
  intro j hj
  rw [writeList_get m l i j hj, Nat.mod_eq_of_lt]
  apply hl
  rw [List.getD_eq_getElem l 0 hj]
  exact List.getElem_mem hj

/-- Memories agreeing on the region of a byte list both hold it. -/
theorem hasBytes_congr (m1 m2 : Mem) (i : Nat) (l : List Nat)
    (h : ∀ j, j < l.length → m1 (i + j) = m2 (i + j)) (hm : HasBytes m1 i l) :
    HasBytes m2 i l := by
  intro j hj
  rw [← h j hj]
  exact hm j hj

/-! ## Claim theorems: the varint codec and the copy strategies -/

/-- Claim C4: for every 32-bit value x, EncodeMod emits at most five
bytes, and DecodeMod run on the emitted bytes consumes exactly those
bytes and returns x. -/
theorem varint_roundtrip (x : Nat) (h : x < 4294967296) (m : Mem) (p : Nat) :
    (EncodeMod x).length ≤ 5 ∧
    DecodeMod (writeList m p (EncodeMod x)) p = (x, p + (EncodeMod x).length) := by
  refine ⟨encodeMod_length x h, ?_⟩
  exact decodeMod_encodeMod x h _ p (hasBytes_writeList m p _ (encodeMod_bytes x))

theorem varint_roundtrip_witness :
    (EncodeMod 300).length ≤ 5 ∧
    DecodeMod (writeList zeroMem 0 (EncodeMod 300)) 0 = (300, 0 + (EncodeMod 300).length) :=
  varint_roundtrip 300 (by norm_num) zeroMem 0

/-- Claim C5: on every valid match with distance at least 4 (distance
not reaching before the output start), the forward 8-byte-stride
WildCopy from `op - d` to `op` writes the same `l` output bytes as the
strict forward byte-by-byte copy. -/
theorem wildCopy_equiv_byteCopy (m : Mem) (op d l : Nat) (h4 : 4 ≤ d) (hval : d ≤ op) :
    ∀ j, j < l → WildCopy m op (op - d) l (op + j) = ByteCopy m op (op - d) l (op + j) := by
  intro j hj
  have hsplit : op = (op - d) + d := by omega
  have e1 : WildCopy m op (op - d) l (op + j) = m ((op - d) + j % d) := by
    have := wildCopy_periodic m (op - d) d l j h4 (lt_of_lt_of_le hj (wext_ge l))
    rw [← hsplit] at this
    exact this
  have e2 : ByteCopy m op (op - d) l (op + j) = m ((op - d) + j % d) := by
    have := byteCopy_periodic m (op - d) d l j hj
    rw [← hsplit] at this
    exact this
  rw [e1, e2]

theorem wildCopy_equiv_byteCopy_witness :
    WildCopy rtIn 4 (4 - 4) 9 (4 + 5) = ByteCopy rtIn 4 (4 - 4) 9 (4 + 5) :=
  wildCopy_equiv_byteCopy rtIn 4 4 9 (by decide) (by decide) 5 (by decide)

/-- Claim C10: the decoder accepts a hand-crafted match token with
encoded distance 0 (tag bit 4 clear, 16-bit field 0): the range check
`(op - out) < dist` cannot fail for `dist = 0`, the byte-by-byte path
copies from the write cursor onto itself, and Decompress returns the
non-negative length 5 on the stream 32, 65, 0, 0 with capacity 5. -/
theorem dist_zero_accepted : (Decompress c10In 4 exC2Out 5).1 = 5 := by decide

/-- Claim C9: a stream whose first token is a match (tag below 32, so
no literal run) with decoded distance above 0 is rejected: either the
length check or the distance check `(op - out) < dist` fails at output
position 0, and Decompress returns a negative value. -/
theorem first_match_rejected (inm : Mem) (in_len out_len : Nat) (out0 : Mem)
    (h1 : 1 ≤ in_len) (htag : inm 0 < 32)
    (hd : 0 < ((inm 0 &&& 16) <<< 12) +
        UnalignedLoad16 inm
          (if (inm 0 &&& 15) + MIN_MATCH = 15 + MIN_MATCH then (DecodeMod inm 1).2 else 1)) :
    (Decompress inm in_len out0 out_len).1 < 0 := by
  unfold Decompress
  obtain ⟨fuel, rfl⟩ : ∃ fuel, in_len = fuel + 1 := ⟨in_len - 1, by omega⟩
  simp only [DecompressLoop]
  rw [if_pos (by simp)]
  have hstep : DecompressStep inm (fuel + 1) out_len ⟨0, 0, out0⟩ =
      MatchPhase inm out_len (inm 0) 1 0 out0 := by
    simp only [DecompressStep]
    rw [if_neg (by omega)]
  rw [hstep]
  unfold MatchPhase
  by_cases hlen : (out_len : Int) - ((0 : Nat) : Int) <
      ((if (inm 0 &&& 15) + MIN_MATCH = 15 + MIN_MATCH
        then ((inm 0 &&& 15) + MIN_MATCH + (DecodeMod inm 1).1) % 4294967296
        else (inm 0 &&& 15) + MIN_MATCH : Nat) : Int)
  · rw [if_pos hlen]
    norm_num
  · rw [if_neg hlen, if_pos (by omega)]
    norm_num

theorem first_match_rejected_witness : (Decompress c9In 3 zeroMem 10).1 < 0 :=
  first_match_rejected c9In 3 10 zeroMem (by decide) (by decide) (by decide)

/-- Supporting theorem for claim C3 (the size bound): a match token
with pending run 16519 and match length 5 at distance 16524 emits
16525 bytes while consuming only 16524 input bytes: the varint of
`run - 7 = 16512` takes three bytes, one more than the short-match
suppression rule accounts for.  Chaining 17 such tokens (and a short
literal tail) overruns the `n + EXCESS` output bound. -/
theorem c3_token_excess :
    (EmitMatch zeroMem zeroMem 0 16519 16519 5 16524).2 = 16525 ∧ 16519 + 5 = 16524 := by
  constructor
  · rfl
  · rfl

/-! ## Decompressor safety lemmas -/

theorem wext_le8 (n : Nat) : wext n ≤ n + 8 := by
  rcases Nat.eq_zero_or_pos n with h | h
  · subst h
    decide
  · have := wext_le n h
    omega

theorem decodeModAux_cursor (m : Mem) :
    ∀ fuel p i x, p ≤ (DecodeModAux m p i x fuel).2 ∧ (DecodeModAux m p i x fuel).2 ≤ p + fuel := by
  intro fuel
  induction fuel with
  | zero => intro p i x; simp [DecodeModAux]
  | succ fuel ih =>
    intro p i x
    rw [decodeModAux_step]
    split
    · simp
    · have := ih (p + 1) (i + 7) ((x + m p <<< i) % 4294967296)
      omega

theorem decodeMod_cursor (m : Mem) (p : Nat) :
    p ≤ (DecodeMod m p).2 ∧ (DecodeMod m p).2 ≤ p + 5 :=
  decodeModAux_cursor m 5 p 0 0

theorem matchPhase_done_spec (inm : Mem) (out_len tag ip op : Nat) (out : Mem) (r : Int)
    (o : Mem) (h : MatchPhase inm out_len tag ip op out = .done r o) : r = -1 ∧ o = out := by
  simp only [MatchPhase] at h
  set L := if (tag &&& 15) + MIN_MATCH = 15 + MIN_MATCH
    then ((tag &&& 15) + MIN_MATCH + (DecodeMod inm ip).1) % 4294967296
    else (tag &&& 15) + MIN_MATCH with hLdef
  set IP1 := if (tag &&& 15) + MIN_MATCH = 15 + MIN_MATCH then (DecodeMod inm ip).2 else ip
    with hIP1def
  set D := ((tag &&& 16) <<< 12) + UnalignedLoad16 inm IP1 with hDdef
  by_cases h1 : (out_len : Int) - (op : Int) < (L : Int)
  · rw [if_pos h1] at h
    cases h
    exact ⟨rfl, rfl⟩
  · rw [if_neg h1] at h
    by_cases h2 : op < D
    · rw [if_pos h2] at h
      cases h
      exact ⟨rfl, rfl⟩
    · rw [if_neg h2] at h
      by_cases h3 : 4 ≤ D
      · rw [if_pos h3] at h
        cases h
      · rw [if_neg h3] at h
        cases h

theorem matchPhase_next_spec (inm : Mem) (out_len tag ip op : Nat) (out : Mem)
    (st2 : DState) (hop : op ≤ out_len)
    (h : MatchPhase inm out_len tag ip op out = .next st2) :
    ip + 2 ≤ st2.ip ∧ st2.ip ≤ ip + 7 ∧ op ≤ st2.op ∧ st2.op ≤ out_len ∧
      ∀ j, out_len + 8 ≤ j → st2.out j = out j := by
  have hcur := decodeMod_cursor inm ip
  simp only [MatchPhase] at h
  set L := if (tag &&& 15) + MIN_MATCH = 15 + MIN_MATCH
    then ((tag &&& 15) + MIN_MATCH + (DecodeMod inm ip).1) % 4294967296
    else (tag &&& 15) + MIN_MATCH with hLdef
  set IP1 := if (tag &&& 15) + MIN_MATCH = 15 + MIN_MATCH then (DecodeMod inm ip).2 else ip
    with hIP1def
  set D := ((tag &&& 16) <<< 12) + UnalignedLoad16 inm IP1 with hDdef
  have hip1 : ip ≤ IP1 ∧ IP1 ≤ ip + 5 := by
    rw [hIP1def]
    split
    · exact hcur
    · omega
  by_cases h1 : (out_len : Int) - (op : Int) < (L : Int)
  · rw [if_pos h1] at h
    cases h
  · rw [if_neg h1] at h
    have hLle : op + L ≤ out_len := by omega
    by_cases h2 : op < D
    · rw [if_pos h2] at h
      cases h
    · rw [if_neg h2] at h
      by_cases h3 : 4 ≤ D
      · rw [if_pos h3] at h
        cases h
        refine ⟨?_, ?_, ?_, ?_, ?_⟩
        · show ip + 2 ≤ IP1 + 2
          omega
        · show IP1 + 2 ≤ ip + 7
          omega
        · show op ≤ op + L
          omega
        · show op + L ≤ out_len
          omega
        · intro j hj
          show WildCopy out op (op - D) L j = out j
          apply wildCopy_out
          right
          have := wext_le8 L
          omega
      · rw [if_neg h3] at h
        cases h
        refine ⟨?_, ?_, ?_, ?_, ?_⟩
        · show ip + 2 ≤ IP1 + 2
          omega
        · show IP1 + 2 ≤ ip + 7
          omega
        · show op ≤ op + L
          omega
        · show op + L ≤ out_len
          omega
        · intro j hj
          show ByteCopy out op (op - D) L j = out j
          apply byteCopy_out
          right
          omega

theorem dstep_done_spec (inm : Mem) (in_len out_len : Nat) (st : DState) (r : Int) (o : Mem)
    (hop : st.op ≤ out_len) (h : DecompressStep inm in_len out_len st = .done r o) :
    r = -1 ∧ ∀ j, out_len + 8 ≤ j → o j = st.out j := by
  simp only [DecompressStep] at h
  by_cases htag : 32 ≤ inm st.ip
  · rw [if_pos htag] at h
    set R := if inm st.ip >>> 5 = 7 then (7 + (DecodeMod inm (st.ip + 1)).1) % 4294967296
      else inm st.ip >>> 5 with hRdef
    set IP2 := if inm st.ip >>> 5 = 7 then (DecodeMod inm (st.ip + 1)).2 else st.ip + 1
      with hIP2def
    by_cases hchk : (out_len : Int) - (st.op : Int) < (R : Int) ∨
        (in_len : Int) - (IP2 : Int) < (R : Int)
    · rw [if_pos hchk] at h
      cases h
      exact ⟨rfl, fun j hj => rfl⟩
    · rw [if_neg hchk] at h
      push_neg at hchk
      have hout2 : ∀ j, out_len + 8 ≤ j →
          WildCopyX st.out inm st.op IP2 R j = st.out j := by
        intro j hj
        rw [wildCopyX_spec]
        rw [if_neg]
        have := wext_le8 R
        omega
      by_cases hbrk : in_len ≤ IP2 + R
      · rw [if_pos hbrk] at h
        cases h
      · rw [if_neg hbrk] at h
        have := matchPhase_done_spec inm out_len (inm st.ip) (IP2 + R) (st.op + R)
          (WildCopyX st.out inm st.op IP2 R) r o h
        refine ⟨this.1, fun j hj => ?_⟩
        rw [this.2]
        exact hout2 j hj
  · rw [if_neg htag] at h
    have := matchPhase_done_spec inm out_len (inm st.ip) (st.ip + 1) st.op st.out r o h
    exact ⟨this.1, fun j hj => by rw [this.2]⟩

theorem dstep_next_spec (inm : Mem) (in_len out_len : Nat) (st : DState) (st2 : DState)
    (hop : st.op ≤ out_len) (h : DecompressStep inm in_len out_len st = .next st2) :
    st.ip < st2.ip ∧ st.op ≤ st2.op ∧ st2.op ≤ out_len ∧
      ∀ j, out_len + 8 ≤ j → st2.out j = st.out j := by
  simp only [DecompressStep] at h
  by_cases htag : 32 ≤ inm st.ip
  · rw [if_pos htag] at h
    have hcur := decodeMod_cursor inm (st.ip + 1)
    set R := if inm st.ip >>> 5 = 7 then (7 + (DecodeMod inm (st.ip + 1)).1) % 4294967296
      else inm st.ip >>> 5 with hRdef
    set IP2 := if inm st.ip >>> 5 = 7 then (DecodeMod inm (st.ip + 1)).2 else st.ip + 1
      with hIP2def
    have hip2 : st.ip + 1 ≤ IP2 := by
      rw [hIP2def]
      split
      · exact hcur.1
      · omega
    by_cases hchk : (out_len : Int) - (st.op : Int) < (R : Int) ∨
        (in_len : Int) - (IP2 : Int) < (R : Int)
    · rw [if_pos hchk] at h
      cases h
    · rw [if_neg hchk] at h
      push_neg at hchk
      have hRle : st.op + R ≤ out_len := by
        have := hchk.1
        omega
      have hout2 : ∀ j, out_len + 8 ≤ j →
          WildCopyX st.out inm st.op IP2 R j = st.out j := by
        intro j hj
        rw [wildCopyX_spec]
        rw [if_neg]
        have := wext_le8 R
        omega
      by_cases hbrk : in_len ≤ IP2 + R
      · rw [if_pos hbrk] at h
        cases h
        refine ⟨?_, ?_, ?_, ?_⟩
        · show st.ip < IP2 + R
          omega
        · show st.op ≤ st.op + R
          omega
        · show st.op + R ≤ out_len
          omega
        · intro j hj
          exact hout2 j hj
      · rw [if_neg hbrk] at h
        have := matchPhase_next_spec inm out_len (inm st.ip) (IP2 + R) (st.op + R)
          (WildCopyX st.out inm st.op IP2 R) st2 hRle h
        refine ⟨by omega, by omega, this.2.2.2.1, fun j hj => ?_⟩
        rw [this.2.2.2.2 j hj]
        exact hout2 j hj
  · rw [if_neg htag] at h
    have := matchPhase_next_spec inm out_len (inm st.ip) (st.ip + 1) st.op st.out st2 hop h
    exact ⟨by omega, by omega, this.2.2.2.1, this.2.2.2.2⟩

/-- Throughout the decompressor loop the result value never exceeds the
declared capacity, and nothing at or beyond `out_len + 8` is written. -/
theorem dloop_confined (inm : Mem) (in_len out_len : Nat) :
    ∀ fuel st, st.op ≤ out_len →
      (DecompressLoop inm in_len out_len fuel st).1 ≤ (out_len : Int) ∧
      ∀ j, out_len + 8 ≤ j → (DecompressLoop inm in_len out_len fuel st).2 j = st.out j := by
  intro fuel
  induction fuel with
  | zero =>
    intro st hop
    refine ⟨?_, fun j hj => rfl⟩
    show (if st.ip = in_len then (st.op : Int) else -1) ≤ (out_len : Int)
    split <;> omega
  | succ fuel ih =>
    intro st hop
    simp only [DecompressLoop]
    by_cases hip : st.ip < in_len
    · rw [if_pos hip]
      cases hds : DecompressStep inm in_len out_len st with
      | done r o =>
        obtain ⟨hr, hw⟩ := dstep_done_spec inm in_len out_len st r o hop hds
        subst hr
        refine ⟨?_, fun j hj => hw j hj⟩
        show (-1 : Int) ≤ (out_len : Int)
        omega
      | next st2 =>
        have hspec := dstep_next_spec inm in_len out_len st st2 hop hds
        have := ih st2 hspec.2.2.1
        refine ⟨this.1, fun j hj => ?_⟩
        show (DecompressLoop inm in_len out_len fuel st2).2 j = st.out j
        rw [this.2 j hj]
        exact hspec.2.2.2 j hj
    · rw [if_neg hip]
      refine ⟨?_, fun j hj => rfl⟩
      show (if st.ip = in_len then (st.op : Int) else -1) ≤ (out_len : Int)
      split <;> omega

theorem decodeModAux_congr (m1 m2 : Mem) :
    ∀ fuel p i x, (∀ k, k < fuel → m1 (p + k) = m2 (p + k)) →
      DecodeModAux m1 p i x fuel = DecodeModAux m2 p i x fuel := by
  intro fuel
  induction fuel with
  | zero => intro p i x _; rfl
  | succ fuel ih =>
    intro p i x hk
    rw [decodeModAux_step, decodeModAux_step]
    have h0 : m1 p = m2 p := by
      have := hk 0 (by omega)
      simpa using this
    rw [h0]
    split
    · rfl
    · apply ih
      intro k hkf
      have := hk (k + 1) (by omega)
      simpa [Nat.add_assoc, Nat.add_comm 1 k] using this

theorem decodeMod_congr (m1 m2 : Mem) (p : Nat)
    (h : ∀ k, k < 5 → m1 (p + k) = m2 (p + k)) : DecodeMod m1 p = DecodeMod m2 p :=
  decodeModAux_congr m1 m2 5 p 0 0 h

theorem matchPhase_congr (inm1 inm2 : Mem) (in_len out_len tag ip op : Nat) (out : Mem)
    (hag : ∀ i, i < in_len + 8 → inm1 i = inm2 i) (hip : ip ≤ in_len) :
    MatchPhase inm1 out_len tag ip op out = MatchPhase inm2 out_len tag ip op out := by
  have hdm : DecodeMod inm1 ip = DecodeMod inm2 ip := by
    apply decodeMod_congr
    intro k hk
    apply hag
    omega
  have hcur := decodeMod_cursor inm1 ip
  rw [hdm] at hcur
  have hld : UnalignedLoad16 inm1
        (if (tag &&& 15) + MIN_MATCH = 15 + MIN_MATCH then (DecodeMod inm2 ip).2 else ip) =
      UnalignedLoad16 inm2
        (if (tag &&& 15) + MIN_MATCH = 15 + MIN_MATCH then (DecodeMod inm2 ip).2 else ip) := by
    unfold UnalignedLoad16
    split
    · rw [hag _ (by omega), hag _ (by omega)]
    · rw [hag _ (by omega), hag _ (by omega)]
  simp only [MatchPhase, hdm, hld]

theorem dstep_congr (inm1 inm2 : Mem) (in_len out_len : Nat) (st : DState)
    (hag : ∀ i, i < in_len + 8 → inm1 i = inm2 i) (hip : st.ip < in_len) :
    DecompressStep inm1 in_len out_len st = DecompressStep inm2 in_len out_len st := by
  have htg : inm1 st.ip = inm2 st.ip := hag _ (by omega)
  have hdm : DecodeMod inm1 (st.ip + 1) = DecodeMod inm2 (st.ip + 1) := by
    apply decodeMod_congr
    intro k hk
    apply hag
    omega
  have hcur := decodeMod_cursor inm1 (st.ip + 1)
  simp only [DecompressStep, htg, hdm]
  by_cases htag : 32 ≤ inm2 st.ip
  · rw [if_pos htag, if_pos htag]
    set R := if inm2 st.ip >>> 5 = 7 then (7 + (DecodeMod inm2 (st.ip + 1)).1) % 4294967296
      else inm2 st.ip >>> 5 with hRdef
    set IP2 := if inm2 st.ip >>> 5 = 7 then (DecodeMod inm2 (st.ip + 1)).2 else st.ip + 1
      with hIP2def
    have hip2 : st.ip + 1 ≤ IP2 ∧ IP2 ≤ st.ip + 6 := by
      rw [hIP2def]
      split
      · rw [← hdm]
        exact ⟨hcur.1, by omega⟩
      · omega
    by_cases hchk : (out_len : Int) - (st.op : Int) < (R : Int) ∨
        (in_len : Int) - (IP2 : Int) < (R : Int)
    · rw [if_pos hchk, if_pos hchk]
    · rw [if_neg hchk, if_neg hchk]
      push_neg at hchk
      have hR : IP2 + R ≤ in_len := by
        have := hchk.2
        omega
      have hwc : WildCopyX st.out inm1 st.op IP2 R = WildCopyX st.out inm2 st.op IP2 R := by
        funext j
        rw [wildCopyX_spec, wildCopyX_spec]
        split
        · rename_i hrange
          apply hag
          have := wext_le8 R
          omega
        · rfl
      rw [hwc]
      by_cases hbrk : in_len ≤ IP2 + R
      · rw [if_pos hbrk, if_pos hbrk]
      · rw [if_neg hbrk, if_neg hbrk]
        exact matchPhase_congr inm1 inm2 in_len out_len (inm2 st.ip) (IP2 + R)
          (st.op + R) _ hag (by omega)
  · rw [if_neg htag, if_neg htag]
    exact matchPhase_congr inm1 inm2 in_len out_len (inm2 st.ip) (st.ip + 1) st.op st.out
      hag (by omega)

theorem dloop_congr (inm1 inm2 : Mem) (in_len out_len : Nat)
    (hag : ∀ i, i < in_len + 8 → inm1 i = inm2 i) :
    ∀ fuel st, DecompressLoop inm1 in_len out_len fuel st =
      DecompressLoop inm2 in_len out_len fuel st := by
  intro fuel
  induction fuel with
  | zero => intro st; rfl
  | succ fuel ih =>
    intro st
    simp only [DecompressLoop]
    by_cases hip : st.ip < in_len
    · rw [if_pos hip, if_pos hip, dstep_congr inm1 inm2 in_len out_len st hag hip]
      cases DecompressStep inm2 in_len out_len st with
      | done r o => rfl
      | next st2 => exact ih st2
    · rw [if_neg hip, if_neg hip]

/-- Counterexample to claim C2 as stated: on the two-byte stream
32, 65 with declared capacity 1, Decompress succeeds with result 1 yet
writes the byte at offset 1 (the wild copy of the one-literal run
stores eight bytes), an offset at or beyond the capacity; moreover the
value written there is the byte the copy read at input offset 2, at or
beyond the compressed length 2: with identical declared bytes but a
different slack byte the output differs. -/
theorem decoder_confinement_counterexample :
    (Decompress exC2In 2 exC2Out 1).1 = 1 ∧
    (Decompress exC2In 2 exC2Out 1).2 1 = 0 ∧
    exC2Out 1 = 7 ∧
    (∀ i, i < 2 → exC2In i = exC2In2 i) ∧
    (Decompress exC2In2 2 exC2Out 1).2 1 = 9 :=
  ⟨by decide, by decide, rfl, by decide, by decide⟩

/-- Claim C2, amended: Decompress never returns more than the declared
capacity `out_len` (a negative value signals corruption); its writes
are confined to offsets below `out_len + 8` (the wild copy may spill at
most 8 bytes into the caller slack, within the EXCESS = 16 margin); and
its behaviour depends only on the input bytes at offsets below
`in_len + 8` (all reads stay within 8 bytes past the compressed end). -/
theorem decompress_confined (inm out0 : Mem) (in_len out_len : Nat) :
    (Decompress inm in_len out0 out_len).1 ≤ (out_len : Int) ∧
    (∀ j, out_len + 8 ≤ j → (Decompress inm in_len out0 out_len).2 j = out0 j) ∧
    (∀ inm2 : Mem, (∀ i, i < in_len + 8 → inm i = inm2 i) →
      Decompress inm in_len out0 out_len = Decompress inm2 in_len out0 out_len) := by
  refine ⟨?_, ?_, ?_⟩
  · exact (dloop_confined inm in_len out_len in_len ⟨0, 0, out0⟩ (Nat.zero_le _)).1
  · exact fun j hj =>
      (dloop_confined inm in_len out_len in_len ⟨0, 0, out0⟩ (Nat.zero_le _)).2 j hj
  · intro inm2 hag
    exact dloop_congr inm inm2 in_len out_len hag in_len ⟨0, 0, out0⟩

theorem decompress_confined_witness :
    (Decompress exC2In 2 exC2Out 1).1 ≤ ((1 : Nat) : Int) ∧
    (Decompress exC2In 2 exC2Out 1).2 9 = exC2Out 9 ∧
    Decompress exC2In 2 exC2Out 1 = Decompress exC2In 2 exC2Out 1 :=
  ⟨(decompress_confined exC2In exC2Out 2 1).1,
   (decompress_confined exC2In exC2Out 2 1).2.1 9 (by decide),
   (decompress_confined exC2In exC2Out 2 1).2.2 exC2In (fun i _ => rfl)⟩

/-! ## Hash-chain soundness and the match finder -/

theorem hcsound_init (tail0 : Nat → Int) : HCSound ⟨fun _ => NIL, tail0⟩ 0 := by
  constructor
  · intro h
    simp [NIL]
  · intro s hs
    omega

theorem hcsound_insert (inm : Mem) (hc : HC) (p : Nat) (h : HCSound hc p) :
    HCSound (HashInsert inm hc p) (p + 1) := by
  obtain ⟨hhead, htail⟩ := h
  constructor
  · intro b
    simp only [HashInsert]
    split
    · omega
    · have := hhead b
      omega
  · intro s hs hw
    simp only [HashInsert]
    have hW := WINDOW_SIZE_eq
    split
    · rename_i hmod
      rw [WINDOW_SIZE_eq] at hmod
      have hsp : s = p := by omega
      rw [hsp]
      exact hhead (Hash32 inm p)
    · rename_i hmod
      rw [WINDOW_SIZE_eq] at hmod
      have hsp : s < p := by
        by_contra hge
        exact hmod (by omega)
      exact htail s hsp (by omega)

theorem hcsound_insertRange (inm : Mem) :
    ∀ k (hc : HC) (p : Nat), HCSound hc p → HCSound (InsertRange inm hc p k) (p + k) := by
  intro k
  induction k with
  | zero => intro hc p h; simpa using h
  | succ k ih =>
    intro hc p h
    have := ih (HashInsert inm hc p) (p + 1) (hcsound_insert inm hc p h)
    simp only [InsertRange]
    have e : p + (k + 1) = (p + 1) + k := by omega
    rw [e]
    exact this

/-- The match extension loop: the result extends the start length up to
at most `maxm`, and every byte over the extended range matches. -/
theorem extendMatch_spec (inm : Mem) (s p maxm : Nat) :
    ∀ fuel len0, len0 ≤ maxm → maxm - len0 ≤ fuel →
      len0 ≤ ExtendMatch inm s p maxm len0 fuel ∧
      ExtendMatch inm s p maxm len0 fuel ≤ maxm ∧
      (∀ j, len0 ≤ j → j < ExtendMatch inm s p maxm len0 fuel → inm (s + j) = inm (p + j)) := by
  intro fuel
  induction fuel with
  | zero =>
    intro len0 h1 h2
    simp only [ExtendMatch]
    exact ⟨le_refl _, by omega, fun j hj1 hj2 => by omega⟩
  | succ fuel ih =>
    intro len0 h1 h2
    simp only [ExtendMatch]
    split
    · rename_i hcond
      have := ih (len0 + 1) (by omega) (by omega)
      refine ⟨by omega, this.2.1, fun j hj1 hj2 => ?_⟩
      rcases Nat.eq_or_lt_of_le hj1 with he | hlt
      · subst he
        exact hcond.2
      · exact this.2.2 j (by omega) hj2
    · exact ⟨le_refl _, by omega, fun j hj1 hj2 => by omega⟩

/-- Little-endian 32-bit loads of byte-valued memory are injective on
the four loaded bytes. -/
theorem unalignedLoad32_inj (m : Mem) (i i2 : Nat)
    (hb : ∀ k, k < 4 → m (i + k) < 256 ∧ m (i2 + k) < 256)
    (h : UnalignedLoad32 m i = UnalignedLoad32 m i2) :
    ∀ k, k < 4 → m (i + k) = m (i2 + k) := by
  have h0 := hb 0 (by omega)
  have h1 := hb 1 (by omega)
  have h2 := hb 2 (by omega)
  have h3 := hb 3 (by omega)
  unfold UnalignedLoad32 at h
  intro k hk
  interval_cases k <;> simp only [Nat.add_zero] at h0 h ⊢ <;> omega

/-- The chain walk returns only valid matches: every candidate it
accepts lies strictly below `p` and inside the window (by soundness of
the chain state), and its length is certified byte by byte by the
4-byte guard and the extension loop. -/
theorem matchLoop_spec (inm : Mem) (tl : Nat → Int) (p maxm n : Nat) (limit : Int)
    (hlim1 : NIL ≤ limit) (hlim2 : (p : Int) - (WINDOW_SIZE : Int) ≤ limit)
    (htl : ∀ s : Nat, s < p → p ≤ s + WINDOW_SIZE → tl (s % WINDOW_SIZE) < (s : Int))
    (hm4 : MIN_MATCH ≤ maxm) (hpn : p + maxm ≤ n) (hb : ∀ i, i < n → inm i < 256) :
    ∀ cl (s : Int) bl dist, s < (p : Int) → GoodMatch inm p maxm bl dist →
      GoodMatch inm p maxm (MatchLoop inm tl p maxm limit s bl dist cl).1
        (MatchLoop inm tl p maxm limit s bl dist cl).2 := by
  intro cl
  induction cl with
  | zero => intro s bl dist _ hgood; exact hgood
  | succ cl ih =>
    intro s bl dist hsp hgood
    have hW := WINDOW_SIZE_eq
    have hN : NIL = -1 := rfl
    have hM : MIN_MATCH = 4 := rfl
    simp only [MatchLoop]
    by_cases hls : limit < s
    · rw [if_pos hls]
      have hs0 : 0 ≤ s := by omega
      have hsn : s.toNat < p := by omega
      have hsw : p ≤ s.toNat + WINDOW_SIZE := by omega
      have hnext : tl (s.toNat % WINDOW_SIZE) < (p : Int) := by
        have := htl s.toNat hsn hsw
        omega
      by_cases hguard : inm (s.toNat + bl) = inm (p + bl) ∧
          UnalignedLoad32 inm s.toNat = UnalignedLoad32 inm p
      · rw [if_pos hguard]
        have hext := extendMatch_spec inm s.toNat p maxm maxm MIN_MATCH hm4 (by omega)
        set len := ExtendMatch inm s.toNat p maxm MIN_MATCH maxm with hlen
        have hgood2 : GoodMatch inm p maxm len (p - s.toNat) := by
          intro _
          have hd1 : 1 ≤ p - s.toNat := by omega
          have hdp : p - s.toNat ≤ p := by omega
          have hdw : p - s.toNat < WINDOW_SIZE := by omega
          refine ⟨hext.2.1, hd1, hdp, hdw, fun j hj => ?_⟩
          have hps : p - (p - s.toNat) = s.toNat := by omega
          rw [hps]
          rcases Nat.lt_or_ge j MIN_MATCH with hj4 | hj4
          · have hinj := unalignedLoad32_inj inm s.toNat p
              (fun k hk => ⟨hb _ (by omega), hb _ (by omega)⟩) hguard.2
            exact hinj j (by omega)
          · exact hext.2.2 j hj4 hj
        by_cases himp : bl < len
        · rw [if_pos himp]
          by_cases hmax : len = maxm
          · rw [if_pos hmax]
            exact hgood2
          · rw [if_neg hmax]
            by_cases hcl : cl = 0
            · rw [if_pos hcl]
              exact hgood2
            · rw [if_neg hcl]
              exact ih (tl (s.toNat % WINDOW_SIZE)) len (p - s.toNat) hnext hgood2
        · rw [if_neg himp]
          by_cases hcl : cl = 0
          · rw [if_pos hcl]
            exact hgood
          · rw [if_neg hcl]
            exact ih (tl (s.toNat % WINDOW_SIZE)) bl dist hnext hgood
      · rw [if_neg hguard]
        by_cases hcl : cl = 0
        · rw [if_pos hcl]
          exact hgood
        · rw [if_neg hcl]
          exact ih (tl (s.toNat % WINDOW_SIZE)) bl dist hnext hgood
    · rw [if_neg hls]
      exact hgood

/-- The match finder returns only valid matches. -/
theorem findBest_spec (inm : Mem) (hc : HC) (p maxm mc n : Nat)
    (hsound : HCSound hc p) (hm4 : MIN_MATCH ≤ maxm) (hpn : p + maxm ≤ n)
    (hb : ∀ i, i < n → inm i < 256) :
    GoodMatch inm p maxm (FindBest inm hc p maxm mc).1 (FindBest inm hc p maxm mc).2 := by
  unfold FindBest
  apply matchLoop_spec inm hc.Tail p maxm n _ (le_max_right _ _) (le_max_left _ _)
    hsound.2 hm4 hpn hb
  · exact hsound.1 _
  · intro hge
    simp [MIN_MATCH] at hge

/-! ## Emission lemmas: the bytes the compressor writes -/

theorem memBytes_length (m : Mem) (q : Nat) : ∀ r, (memBytes m q r).length = r := by
  intro r
  induction r generalizing q with
  | zero => rfl
  | succ r ih =>
    simp only [memBytes, List.length_cons, ih]

theorem memBytes_getD (m : Mem) : ∀ r q j, j < r → (memBytes m q r).getD j 0 = m (q + j) := by
  intro r
  induction r with
  | zero => intro q j h; omega
  | succ r ih =>
    intro q j h
    cases j with
    | zero => simp [memBytes]
    | succ j' =>
      simp only [memBytes, List.getD_cons_succ]
      rw [ih q.succ j' (by omega)]
      congr 1
      omega

/-- Preservation below the write region for the primitive writers. -/
theorem store16_out (m : Mem) (i x j : Nat) (h : j < i ∨ i + 2 ≤ j) :
    UnalignedStore16 m i x j = m j := by
  simp only [UnalignedStore16]
  rw [if_neg (by omega), if_neg (by omega)]

theorem wildCopyX_out (dst src : Mem) (d s n j : Nat) (h : j < d ∨ d + wext n ≤ j) :
    WildCopyX dst src d s n j = dst j := by
  rw [wildCopyX_spec, if_neg (by omega)]

theorem wildCopyX_in (dst src : Mem) (d s n j : Nat) (h : j < n) :
    WildCopyX dst src d s n (d + j) = src (s + j) := by
  rw [wildCopyX_spec, if_pos (by have := wext_ge n; omega)]
  congr 1
  omega

theorem tag_and16_le (dist : Nat) : (dist >>> 12) &&& 16 ≤ 16 :=
  Nat.and_le_right

/-- The writes of a match token with a non-empty run: head bytes `A`
(tag and run varint), the wild-copied literals, trailing bytes `B` (the
length varint), then the 16-bit distance.  Everything below the start
cursor is preserved, and the bytes at the cursor are exactly the
concatenation. -/
theorem write_chunks (out inm : Mem) (op oA oB oD s r : Nat) (A B : List Nat) (x : Nat)
    (hA : ∀ b ∈ A, b < 256) (hB : ∀ b ∈ B, b < 256)
    (hoA : oA = op + A.length) (hoB : oB = oA + r) (hoD : oD = oB + B.length) :
    (∀ j, j < op →
      UnalignedStore16 (writeList (WildCopyX (writeList out op A) inm oA s r) oB B) oD x j
        = out j) ∧
    HasBytes (UnalignedStore16 (writeList (WildCopyX (writeList out op A) inm oA s r) oB B) oD x)
      op (A ++ memBytes inm s r ++ B ++ [x % 256, x / 256 % 256]) := by
  constructor
  · intro j hj
    rw [store16_out _ _ _ _ (by omega), writeList_out _ _ _ _ (by omega),
      wildCopyX_out _ _ _ _ _ _ (by omega), writeList_out _ _ _ _ (by omega)]
  · rw [hasBytes_append, hasBytes_append, hasBytes_append]
    have hmlen : (memBytes inm s r).length = r := memBytes_length inm s r
    refine ⟨⟨⟨?_, ?_⟩, ?_⟩, ?_⟩
    · intro j hj
      rw [store16_out _ _ _ _ (by omega), writeList_out _ _ _ _ (by omega),
        wildCopyX_out _ _ _ _ _ _ (by omega), writeList_get _ _ _ _ hj,
        Nat.mod_eq_of_lt (hA _ (by rw [List.getD_eq_getElem A 0 hj]; exact List.getElem_mem hj))]
    · intro j hj
      rw [hmlen] at hj
      rw [store16_out _ _ _ _ (by omega), writeList_out _ _ _ _ (by omega)]
      have e : op + A.length + j = oA + j := by omega
      rw [e, wildCopyX_in _ _ _ _ _ _ hj, memBytes_getD inm r s j hj]
    · intro j hj
      simp only [List.length_append, hmlen]
      rw [store16_out _ _ _ _ (by omega)]
      have e : op + (A.length + r) + j = oB + j := by omega
      rw [e, writeList_get _ _ _ _ hj,
        Nat.mod_eq_of_lt (hB _ (by rw [List.getD_eq_getElem B 0 hj]; exact List.getElem_mem hj))]
    · intro j hj
      simp only [List.length_cons, List.length_nil] at hj
      simp only [List.length_append, hmlen]
      have e : op + (A.length + r + B.length) + j = oD + j := by omega
      rw [e]
      simp only [UnalignedStore16]
      interval_cases j
      · rw [if_pos (by omega)]
        rfl
      · rw [if_neg (by omega), if_pos (by omega)]
        rfl

/-- The writes of a match token with an empty run: head byte, length
varint, distance. -/
theorem write_chunks0 (out : Mem) (op oB oD : Nat) (A B : List Nat) (x : Nat)
    (hA : ∀ b ∈ A, b < 256) (hB : ∀ b ∈ B, b < 256)
    (hoB : oB = op + A.length) (hoD : oD = oB + B.length) :
    (∀ j, j < op → UnalignedStore16 (writeList (writeList out op A) oB B) oD x j = out j) ∧
    HasBytes (UnalignedStore16 (writeList (writeList out op A) oB B) oD x)
      op (A ++ B ++ [x % 256, x / 256 % 256]) := by
  constructor
  · intro j hj
    rw [store16_out _ _ _ _ (by omega), writeList_out _ _ _ _ (by omega),
      writeList_out _ _ _ _ (by omega)]
  · rw [hasBytes_append, hasBytes_append]
    refine ⟨⟨?_, ?_⟩, ?_⟩
    · intro j hj
      rw [store16_out _ _ _ _ (by omega), writeList_out _ _ _ _ (by omega),
        writeList_get _ _ _ _ hj,
        Nat.mod_eq_of_lt (hA _ (by rw [List.getD_eq_getElem A 0 hj]; exact List.getElem_mem hj))]
    · intro j hj
      rw [store16_out _ _ _ _ (by omega)]
      have e : op + A.length + j = oB + j := by omega
      rw [e, writeList_get _ _ _ _ hj,
        Nat.mod_eq_of_lt (hB _ (by rw [List.getD_eq_getElem B 0 hj]; exact List.getElem_mem hj))]
    · intro j hj
      simp only [List.length_cons, List.length_nil] at hj
      simp only [List.length_append]
      have e : op + (A.length + B.length) + j = oD + j := by omega
      rw [e]
      simp only [UnalignedStore16]
      interval_cases j
      · rw [if_pos (by omega)]
        rfl
      · rw [if_neg (by omega), if_pos (by omega)]
        rfl

theorem shift75 : (7 : Nat) <<< 5 = 224 := rfl

theorem shiftRun5 (run : Nat) (h : run < 7) : run <<< 5 ≤ 192 := by
  rw [Nat.shiftLeft_eq]
  have h32 : (2 : Nat) ^ 5 = 32 := rfl
  rw [h32]
  omega

/-- `EmitMatch` advances the output cursor by the length of the encoded
token, leaves the output below the cursor unchanged, and stores exactly
the `EncTok` bytes of the token at the cursor. -/
theorem emitMatch_spec (inm out : Mem) (op p run bl dist : Nat) :
    (EmitMatch inm out op p run bl dist).2 =
      op + (EncTok (memBytes inm (p - run) run) bl dist).length ∧
    (∀ j, j < op → (EmitMatch inm out op p run bl dist).1 j = out j) ∧
    HasBytes (EmitMatch inm out op p run bl dist).1 op
      (EncTok (memBytes inm (p - run) run) bl dist) := by
  have htmp := tag_and16_le dist
  have hmin : min (bl - MIN_MATCH) 15 ≤ 15 := min_le_right _ _
  have hlits : (memBytes inm (p - run) run).length = run := memBytes_length inm (p - run) run
  by_cases hrun0 : run ≠ 0
  · by_cases h7 : 7 ≤ run
    · by_cases h15 : 15 ≤ bl - MIN_MATCH
      · have hET : EncTok (memBytes inm (p - run) run) bl dist =
            (((7 <<< 5) + (((dist >>> 12) &&& 16) + min (bl - MIN_MATCH) 15)) ::
              EncodeMod (run - 7)) ++ memBytes inm (p - run) run ++
              EncodeMod (bl - MIN_MATCH - 15) ++ [dist % 256, dist / 256 % 256] := by
          simp only [EncTok, hlits]
          rw [if_pos hrun0, if_pos h7, if_pos h15]
        have hc := write_chunks out inm op (op + 1 + (EncodeMod (run - 7)).length)
          (op + 1 + (EncodeMod (run - 7)).length + run)
          (op + 1 + (EncodeMod (run - 7)).length + run +
            (EncodeMod (bl - MIN_MATCH - 15)).length)
          (p - run) run
          (((7 <<< 5) + (((dist >>> 12) &&& 16) + min (bl - MIN_MATCH) 15)) ::
            EncodeMod (run - 7))
          (EncodeMod (bl - MIN_MATCH - 15)) dist
          (by
            intro b hb
            rcases List.mem_cons.1 hb with h | h
            · rw [shift75] at h
              omega
            · exact encodeMod_bytes _ _ h)
          (fun b hb => encodeMod_bytes _ _ hb)
          (by simp only [List.length_cons]; omega) rfl rfl
        simp only [EmitMatch]
        rw [if_pos hrun0, if_pos h7, if_pos h15, hET]
        dsimp only
        refine ⟨?_, hc.1, hc.2⟩
        simp only [List.length_append, List.length_cons, List.length_nil, hlits]
        omega
      · have hET : EncTok (memBytes inm (p - run) run) bl dist =
            (((7 <<< 5) + (((dist >>> 12) &&& 16) + min (bl - MIN_MATCH) 15)) ::
              EncodeMod (run - 7)) ++ memBytes inm (p - run) run ++
              ([] : List Nat) ++ [dist % 256, dist / 256 % 256] := by
          simp only [EncTok, hlits]
          rw [if_pos hrun0, if_pos h7, if_neg h15]
        have hc := write_chunks out inm op (op + 1 + (EncodeMod (run - 7)).length)
          (op + 1 + (EncodeMod (run - 7)).length + run)
          (op + 1 + (EncodeMod (run - 7)).length + run)
          (p - run) run
          (((7 <<< 5) + (((dist >>> 12) &&& 16) + min (bl - MIN_MATCH) 15)) ::
            EncodeMod (run - 7))
          ([] : List Nat) dist
          (by
            intro b hb
            rcases List.mem_cons.1 hb with h | h
            · rw [shift75] at h
              omega
            · exact encodeMod_bytes _ _ h)
          (by simp)
          (by simp only [List.length_cons]; omega) rfl (by simp)
        simp only [EmitMatch]
        rw [if_pos hrun0, if_pos h7, if_neg h15, hET]
        dsimp only
        refine ⟨?_, hc.1, hc.2⟩
        simp only [List.length_append, List.length_cons, List.length_nil, hlits]
        omega
    · by_cases h15 : 15 ≤ bl - MIN_MATCH
      · have hET : EncTok (memBytes inm (p - run) run) bl dist =
            [(run <<< 5) + (((dist >>> 12) &&& 16) + min (bl - MIN_MATCH) 15)] ++
              memBytes inm (p - run) run ++
              EncodeMod (bl - MIN_MATCH - 15) ++ [dist % 256, dist / 256 % 256] := by
          simp only [EncTok, hlits]
          rw [if_pos hrun0, if_neg h7, if_pos h15]
        have hc := write_chunks out inm op (op + 1) (op + 1 + run)
          (op + 1 + run + (EncodeMod (bl - MIN_MATCH - 15)).length)
          (p - run) run
          [(run <<< 5) + (((dist >>> 12) &&& 16) + min (bl - MIN_MATCH) 15)]
          (EncodeMod (bl - MIN_MATCH - 15)) dist
          (by
            intro b hb
            simp only [List.mem_singleton] at hb
            have := shiftRun5 run (by omega)
            omega)
          (fun b hb => encodeMod_bytes _ _ hb)
          (by simp) rfl rfl
        simp only [EmitMatch]
        rw [if_pos hrun0, if_neg h7, if_pos h15, hET]
        dsimp only
        refine ⟨?_, hc.1, hc.2⟩
        simp only [List.length_append, List.length_cons, List.length_nil, hlits]
        omega
      · have hET : EncTok (memBytes inm (p - run) run) bl dist =
            [(run <<< 5) + (((dist >>> 12) &&& 16) + min (bl - MIN_MATCH) 15)] ++
              memBytes inm (p - run) run ++
              ([] : List Nat) ++ [dist % 256, dist / 256 % 256] := by
          simp only [EncTok, hlits]
          rw [if_pos hrun0, if_neg h7, if_neg h15]
        have hc := write_chunks out inm op (op + 1) (op + 1 + run) (op + 1 + run)
          (p - run) run
          [(run <<< 5) + (((dist >>> 12) &&& 16) + min (bl - MIN_MATCH) 15)]
          ([] : List Nat) dist
          (by
            intro b hb
            simp only [List.mem_singleton] at hb
            have := shiftRun5 run (by omega)
            omega)
          (by simp)
          (by simp) rfl (by simp)
        simp only [EmitMatch]
        rw [if_pos hrun0, if_neg h7, if_neg h15, hET]
        dsimp only
        refine ⟨?_, hc.1, hc.2⟩
        simp only [List.length_append, List.length_cons, List.length_nil, hlits]
        omega
  · have hrun : run = 0 := by omega
    subst hrun
    by_cases h15 : 15 ≤ bl - MIN_MATCH
    · have hET : EncTok (memBytes inm (p - 0) 0) bl dist =
          [((dist >>> 12) &&& 16) + min (bl - MIN_MATCH) 15] ++
            EncodeMod (bl - MIN_MATCH - 15) ++ [dist % 256, dist / 256 % 256] := by
        simp only [EncTok, hlits]
        rw [if_neg hrun0, if_pos h15]
      have hc := write_chunks0 out op (op + 1)
        (op + 1 + (EncodeMod (bl - MIN_MATCH - 15)).length)
        [((dist >>> 12) &&& 16) + min (bl - MIN_MATCH) 15]
        (EncodeMod (bl - MIN_MATCH - 15)) dist
        (by
          intro b hb
          simp only [List.mem_singleton] at hb
          omega)
        (fun b hb => encodeMod_bytes _ _ hb)
        (by simp) rfl
      simp only [EmitMatch]
      rw [if_neg hrun0, if_pos h15, hET]
      dsimp only
      refine ⟨?_, hc.1, hc.2⟩
      simp only [List.length_append, List.length_cons, List.length_nil, hlits]
      omega
    · have hET : EncTok (memBytes inm (p - 0) 0) bl dist =
          [((dist >>> 12) &&& 16) + min (bl - MIN_MATCH) 15] ++
            ([] : List Nat) ++ [dist % 256, dist / 256 % 256] := by
        simp only [EncTok, hlits]
        rw [if_neg hrun0, if_neg h15]
      have hc := write_chunks0 out op (op + 1) (op + 1)
        [((dist >>> 12) &&& 16) + min (bl - MIN_MATCH) 15]
        ([] : List Nat) dist
        (by
          intro b hb
          simp only [List.mem_singleton] at hb
          omega)
        (by simp)
        (by simp) (by simp)
      simp only [EmitMatch]
      rw [if_neg hrun0, if_neg h15, hET]
      dsimp only
      refine ⟨?_, hc.1, hc.2⟩
      simp only [List.length_append, List.length_cons, List.length_nil, hlits]

/-! ## Tag-byte bit arithmetic -/

theorem and15_eq (x : Nat) : x &&& 15 = x % 16 := by
  have h := Nat.and_pow_two_sub_one_eq_mod x 4
  norm_num at h
  exact h

theorem and16_eq (x : Nat) : x &&& 16 = 16 * (x / 16 % 2) := by
  have h := Nat.and_two_pow x 4
  rw [Nat.testBit_to_div_mod] at h
  have e : (2 : Nat) ^ 4 = 16 := by norm_num
  rw [e] at h
  by_cases hx : x / 16 % 2 = 1
  · simp [hx] at h
    omega
  · simp [hx] at h
    omega

/-- The decoder's distance reconstruction (tag bit 16 shifted into bit 16
plus the little-endian 16-bit field) inverts the encoder's split for
every distance below the window size. -/
theorem dist_reconstruct (dist : Nat) (h : dist < 131072) :
    (((dist >>> 12) &&& 16) <<< 12) + (dist % 256 + 256 * (dist / 256 % 256)) = dist := by
  rw [Nat.shiftRight_eq_div_pow, and16_eq, Nat.shiftLeft_eq]
  have e1 : (2 : Nat) ^ 12 = 4096 := by norm_num
  rw [e1, Nat.div_div_eq_div_mul]
  omega

/-- On a valid match region the input is periodic with period `dist`:
the byte at offset `j` of the match equals the byte at offset `j % dist`
of the window before it. -/
theorem match_periodic (b : Mem) (q dist bl : Nat) (hd1 : 1 ≤ dist) (hdq : dist ≤ q)
    (hby : ∀ j, j < bl → b (q - dist + j) = b (q + j)) :
    ∀ j, j < bl → b (q + j) = b (q - dist + j % dist) := by
  intro j
  induction j using Nat.strong_induction_on with
  | _ j ih =>
    intro hj
    rcases Nat.lt_or_ge j dist with h | h
    · rw [Nat.mod_eq_of_lt h]
      exact (hby j hj).symm
    · have e : q - dist + j = q + (j - dist) := by omega
      rw [← hby j hj, e, ih (j - dist) (by omega) (by omega)]
      rw [Nat.mod_eq_sub_mod h]

/-- The writes of the terminal literal-only token: head bytes `A` (tag
and run varint) then the wild-copied literals; no distance follows. -/
theorem write_chunksF (out inm : Mem) (op oA s r : Nat) (A : List Nat)
    (hA : ∀ b ∈ A, b < 256) (hoA : oA = op + A.length) :
    (∀ j, j < op → WildCopyX (writeList out op A) inm oA s r j = out j) ∧
    HasBytes (WildCopyX (writeList out op A) inm oA s r) op (A ++ memBytes inm s r) := by
  constructor
  · intro j hj
    rw [wildCopyX_out _ _ _ _ _ _ (by omega), writeList_out _ _ _ _ (by omega)]
  · rw [hasBytes_append]
    have hmlen : (memBytes inm s r).length = r := memBytes_length inm s r
    constructor
    · intro j hj
      rw [wildCopyX_out _ _ _ _ _ _ (by omega), writeList_get _ _ _ _ hj,
        Nat.mod_eq_of_lt (hA _ (by rw [List.getD_eq_getElem A 0 hj]; exact List.getElem_mem hj))]
    · intro j hj
      rw [hmlen] at hj
      have e : op + A.length + j = oA + j := by omega
      rw [e, wildCopyX_in _ _ _ _ _ _ hj, memBytes_getD inm r s j hj]

/-- `CompressFlush` on a pending run advances the output cursor by the
length of the terminal token, leaves the output below the cursor
unchanged, and stores exactly the `EncFinal` bytes at the cursor. -/
theorem compressFlush_spec (inm : Mem) (st : CState) (hrun : st.run ≠ 0) :
    (CompressFlush inm st).2 =
      st.op + (EncFinal (memBytes inm (st.p - st.run) st.run)).length ∧
    (∀ j, j < st.op → (CompressFlush inm st).1 j = st.out j) ∧
    HasBytes (CompressFlush inm st).1 st.op
      (EncFinal (memBytes inm (st.p - st.run) st.run)) := by
  have hlits : (memBytes inm (st.p - st.run) st.run).length = st.run :=
    memBytes_length inm (st.p - st.run) st.run
  by_cases h7 : 7 ≤ st.run
  · have hEF : EncFinal (memBytes inm (st.p - st.run) st.run) =
        ((7 <<< 5) :: EncodeMod (st.run - 7)) ++ memBytes inm (st.p - st.run) st.run := by
      simp only [EncFinal, hlits]
      rw [if_pos h7]
    have hc := write_chunksF st.out inm st.op (st.op + 1 + (EncodeMod (st.run - 7)).length)
      (st.p - st.run) st.run ((7 <<< 5) :: EncodeMod (st.run - 7))
      (by
        intro b hb
        rcases List.mem_cons.1 hb with h | h
        · rw [shift75] at h
          omega
        · exact encodeMod_bytes _ _ h)
      (by simp only [List.length_cons]; omega)
    simp only [CompressFlush]
    rw [if_pos hrun, if_pos h7, hEF]
    dsimp only
    refine ⟨?_, hc.1, hc.2⟩
    simp only [List.length_append, List.length_cons, hlits]
    omega
  · have hEF : EncFinal (memBytes inm (st.p - st.run) st.run) =
        [st.run <<< 5] ++ memBytes inm (st.p - st.run) st.run := by
      simp only [EncFinal, hlits]
      rw [if_neg h7]
    have hc := write_chunksF st.out inm st.op (st.op + 1) (st.p - st.run) st.run [st.run <<< 5]
      (by
        intro b hb
        simp only [List.mem_singleton] at hb
        have := shiftRun5 st.run (by omega)
        omega)
      (by simp)
    simp only [CompressFlush]
    rw [if_pos hrun, if_neg h7, hEF]
    dsimp only
    refine ⟨?_, hc.1, hc.2⟩
    simp only [List.length_append, List.length_cons, List.length_nil, hlits]
    omega

/-! ## The compressor emits a well-formed token stream -/

theorem lookahead1_cases (inm : Mem) (hc : HC) (p mc bl i : Nat) :
    Lookahead1 inm hc p mc bl i = 0 ∨ Lookahead1 inm hc p mc bl i = bl := by
  simp only [Lookahead1]
  split
  · left; rfl
  · right; rfl

theorem lookahead_cases (inm : Mem) (hc : HC) (p mc bl : Nat) :
    Lookahead inm hc p mc bl = 0 ∨ Lookahead inm hc p mc bl = bl := by
  simp only [Lookahead]
  set x := (if bl ≠ 0 then Lookahead1 inm hc p mc bl 1 else bl) with hx
  have h1 : x = 0 ∨ x = bl := by
    rw [hx]
    split
    · exact lookahead1_cases inm hc p mc bl 1
    · right; rfl
  split
  · rcases lookahead1_cases inm hc p mc x 2 with h | h
    · left; exact h
    · rcases h1 with h2 | h2
      · left; rw [h, h2]
      · right; rw [h, h2]
  · exact h1

/-- A compressor iteration either takes the literal branch or emits a
match certified by the match finder: its length fits the remaining
input, its distance is positive, reaches neither before the start nor
beyond the window, and the referenced bytes match. -/
theorem compressStep_cases (inm : Mem) (in_len level mc : Nat) (st : CState)
    (hsound : HCSound st.hc st.p) (hple : st.p ≤ in_len)
    (hb : ∀ i, i < in_len → inm i < 256) :
    CompressStep inm in_len level mc st = LiteralStep inm st ∨
    ∃ bl dist, CompressStep inm in_len level mc st = MatchStep inm st bl dist ∧
      MIN_MATCH ≤ bl ∧ bl ≤ in_len - st.p ∧ 1 ≤ dist ∧ dist ≤ st.p ∧ dist < WINDOW_SIZE ∧
      ∀ j, j < bl → inm (st.p - dist + j) = inm (st.p + j) := by
  simp only [CompressStep]
  set maxm := in_len - st.p with hmaxm
  set f := (if MIN_MATCH ≤ maxm then FindBest inm st.hc st.p maxm mc
    else (MIN_MATCH - 1, 0)) with hf
  set bl1 := (if f.1 = MIN_MATCH ∧ 7 + 128 ≤ st.run then 0 else f.1) with hbl1
  set bl := (if level = 9 ∧ MIN_MATCH ≤ bl1 ∧ bl1 < maxm then
    Lookahead inm st.hc st.p mc bl1 else bl1) with hbl
  by_cases hm : MIN_MATCH ≤ bl
  · rw [if_pos hm]
    right
    have hM : MIN_MATCH = 4 := rfl
    have hla : bl = 0 ∨ bl = bl1 := by
      rw [hbl]
      split
      · exact lookahead_cases inm st.hc st.p mc bl1
      · right; rfl
    have hb1 : bl1 = 0 ∨ bl1 = f.1 := by
      rw [hbl1]
      split
      · left; rfl
      · right; rfl
    have hblf : bl = f.1 := by
      rcases hla with h | h <;> rcases hb1 with h2 | h2 <;> omega
    have hmm : MIN_MATCH ≤ maxm := by
      by_contra hno
      rw [if_neg hno] at hf
      have : f.1 = MIN_MATCH - 1 := by rw [hf]
      omega
    rw [if_pos hmm] at hf
    have hgood := findBest_spec inm st.hc st.p maxm mc in_len hsound hmm (by omega) hb
    rw [← hf] at hgood
    obtain ⟨hlen, hd1, hdp, hdw, hby⟩ := hgood (by omega)
    exact ⟨bl, f.2, rfl, hm, by omega, hd1, hdp, hdw, by rw [hblf]; exact hby⟩
  · rw [if_neg hm]
    left
    rfl

/-- A loop exit state (position at the input end) flushes into exactly
the bytes of a well-formed terminal stream fragment. -/
theorem loopEnd_emits (inm : Mem) (in_len : Nat) (st : CState)
    (hrle : st.run ≤ st.p) (hpe : st.p = in_len) :
    ∃ toks, StreamOK inm in_len (st.p - st.run) toks ∧
      (CompressFlush inm st).2 =
        st.op + (StreamBytes inm (st.p - st.run) toks).length ∧
      (∀ j, j < st.op → (CompressFlush inm st).1 j = st.out j) ∧
      HasBytes (CompressFlush inm st).1 st.op (StreamBytes inm (st.p - st.run) toks) := by
  by_cases hrun : st.run ≠ 0
  · obtain ⟨hc1, hc2, hc3⟩ := compressFlush_spec inm st hrun
    have hSB : StreamBytes inm (st.p - st.run) [Tok.mk st.run 0 0] =
        EncFinal (memBytes inm (st.p - st.run) st.run) := by
      simp [StreamBytes, TokBytes]
    refine ⟨[Tok.mk st.run 0 0], ?_, ?_, hc2, ?_⟩
    · exact StreamOK.fin (st.p - st.run) st.run (by omega) (by omega)
    · rw [hSB]; exact hc1
    · rw [hSB]; exact hc3
  · refine ⟨[], ?_, ?_, ?_, ?_⟩
    · have h0 : st.p - st.run = in_len := by omega
      rw [h0]
      exact StreamOK.nil
    · simp only [CompressFlush]
      rw [if_neg hrun]
      simp [StreamBytes]
    · intro j hj
      simp only [CompressFlush]
      rw [if_neg hrun]
    · simp only [CompressFlush]
      rw [if_neg hrun]
      exact hasBytes_nil _ _

/-- The compressor loop followed by the flush, from any sound state,
writes at the output cursor exactly the encoded bytes of a well-formed
token stream covering the rest of the input (and preserves the output
below the cursor). -/
theorem compress_emits (inm : Mem) (in_len level mc : Nat)
    (hb : ∀ i, i < in_len → inm i < 256) :
    ∀ fuel (st : CState),
      in_len ≤ st.p + fuel → st.run ≤ st.p → st.p ≤ in_len → HCSound st.hc st.p →
      ∃ toks, StreamOK inm in_len (st.p - st.run) toks ∧
        (CompressFlush inm (CompressLoop inm in_len level mc fuel st)).2 =
          st.op + (StreamBytes inm (st.p - st.run) toks).length ∧
        (∀ j, j < st.op →
          (CompressFlush inm (CompressLoop inm in_len level mc fuel st)).1 j = st.out j) ∧
        HasBytes (CompressFlush inm (CompressLoop inm in_len level mc fuel st)).1 st.op
          (StreamBytes inm (st.p - st.run) toks) := by
  intro fuel
  induction fuel with
  | zero =>
    intro st hfuel hrle hple hsound
    simp only [CompressLoop]
    exact loopEnd_emits inm in_len st hrle (by omega)
  | succ fuel ih =>
    intro st hfuel hrle hple hsound
    simp only [CompressLoop]
    by_cases hplt : st.p < in_len
    · rw [if_pos hplt]
      rcases compressStep_cases inm in_len level mc st hsound hple hb with hstep | hstep
      · rw [hstep]
        have hq2 : (LiteralStep inm st).p - (LiteralStep inm st).run = st.p - st.run := by
          show st.p + 1 - (st.run + 1) = st.p - st.run
          omega
        obtain ⟨toks, hok, hcur, hpres, hbytes⟩ := ih (LiteralStep inm st)
          (by show in_len ≤ st.p + 1 + fuel; omega)
          (by show st.run + 1 ≤ st.p + 1; omega)
          (by show st.p + 1 ≤ in_len; omega)
          (by show HCSound (HashInsert inm st.hc st.p) (st.p + 1)
              exact hcsound_insert inm st.hc st.p hsound)
        rw [hq2] at hok hcur hbytes
        exact ⟨toks, hok, hcur, hpres, hbytes⟩
      · obtain ⟨bl, dist, hstep, hm4, hble, hd1, hdp, hdw, hby⟩ := hstep
        rw [hstep]
        have hM : MIN_MATCH = 4 := rfl
        have hq2 : (MatchStep inm st bl dist).p - (MatchStep inm st bl dist).run =
            st.p + bl := by
          show st.p + bl - 0 = st.p + bl
          omega
        obtain ⟨toks, hok, hcur, hpres, hbytes⟩ := ih (MatchStep inm st bl dist)
          (by show in_len ≤ st.p + bl + fuel; omega)
          (by show (0 : Nat) ≤ st.p + bl; omega)
          (by show st.p + bl ≤ in_len; omega)
          (by show HCSound (InsertRange inm st.hc st.p bl) (st.p + bl)
              exact hcsound_insertRange inm bl st.hc st.p hsound)
        rw [hq2] at hok hcur hbytes
        obtain ⟨hec, hep, heb⟩ := emitMatch_spec inm st.out st.op st.p st.run bl dist
        have hop2 : (MatchStep inm st bl dist).op =
            (EmitMatch inm st.out st.op st.p st.run bl dist).2 := rfl
        have hout2 : (MatchStep inm st bl dist).out =
            (EmitMatch inm st.out st.op st.p st.run bl dist).1 := rfl
        have e2 : st.p - st.run + st.run + bl = st.p + bl := by omega
        have hTok : TokBytes inm (st.p - st.run) (Tok.mk st.run bl dist) =
            EncTok (memBytes inm (st.p - st.run) st.run) bl dist := by
          simp only [TokBytes]
          rw [if_neg (by show ¬ bl = 0; omega)]
        have hSB : StreamBytes inm (st.p - st.run) (Tok.mk st.run bl dist :: toks) =
            EncTok (memBytes inm (st.p - st.run) st.run) bl dist ++
              StreamBytes inm (st.p + bl) toks := by
          show TokBytes inm (st.p - st.run) (Tok.mk st.run bl dist) ++
              StreamBytes inm (st.p - st.run + st.run + bl) toks = _
          rw [hTok, e2]
        refine ⟨Tok.mk st.run bl dist :: toks, ?_, ?_, ?_, ?_⟩
        · refine StreamOK.tok (st.p - st.run) (Tok.mk st.run bl dist) toks hm4
            (by show 1 ≤ dist; omega)
            (by show dist ≤ st.p - st.run + st.run; omega)
            (by show dist < 131072; have hW := WINDOW_SIZE_eq; omega)
            ?_ (by show st.p - st.run + st.run + bl ≤ in_len; omega) ?_
          · intro j hj
            show inm (st.p - st.run + st.run - dist + j) = inm (st.p - st.run + st.run + j)
            have e3 : st.p - st.run + st.run = st.p := by omega
            rw [e3]
            exact hby j hj
          · show StreamOK inm in_len (st.p - st.run + st.run + bl) toks
            rw [e2]
            exact hok
        · rw [hSB]
          simp only [List.length_append]
          rw [hcur, hop2, hec]
          omega
        · intro j hj
          rw [hpres j (by rw [hop2, hec]; omega), hout2]
          exact hep j hj
        · rw [hSB, hasBytes_append]
          constructor
          · refine hasBytes_congr (EmitMatch inm st.out st.op st.p st.run bl dist).1 _
              st.op _ (fun j hj => ?_) heb
            have h5 := hpres (st.op + j) (by rw [hop2, hec]; omega)
            rw [hout2] at h5
            exact h5.symm
          · rw [hop2, hec] at hbytes
            exact hbytes
    · rw [if_neg hplt]
      exact loopEnd_emits inm in_len st hrle (by omega)

/-! ## The decoder reconstructs a well-formed stream -/

/-- The wild overlap copy of a valid match reconstructs the input bytes:
below the cursor nothing changes, and the copied region agrees with the
periodic extension, which on a valid match equals the input. -/
theorem wildMatch_correct (b out : Mem) (q dist bl : Nat) (hd4 : 4 ≤ dist) (hd1 : 1 ≤ dist)
    (hdq : dist ≤ q) (hby : ∀ j, j < bl → b (q - dist + j) = b (q + j))
    (hout : ∀ j, j < q → out j = b j) :
    ∀ j, j < q + bl → WildCopy out q (q - dist) bl j = b j := by
  intro j hj
  rcases Nat.lt_or_ge j q with hjq | hjq
  · rw [wildCopy_out out q (q - dist) bl j (Or.inl hjq)]
    exact hout j hjq
  · have hper := wildCopy_periodic out (q - dist) dist bl (j - q) hd4
      (by have := wext_ge bl; omega)
    have e1 : q - dist + dist = q := by omega
    rw [e1] at hper
    have e2 : q + (j - q) = j := by omega
    rw [e2] at hper
    rw [hper]
    have hlt : q - dist + (j - q) % dist < q := by
      have := Nat.mod_lt (j - q) (show 0 < dist by omega)
      omega
    rw [hout _ hlt]
    have hmp := match_periodic b q dist bl hd1 hdq hby (j - q) (by omega)
    rw [← hmp, e2]

/-- The byte-by-byte copy of a valid match reconstructs the input
bytes. -/
theorem byteMatch_correct (b out : Mem) (q dist bl : Nat) (hd1 : 1 ≤ dist)
    (hdq : dist ≤ q) (hby : ∀ j, j < bl → b (q - dist + j) = b (q + j))
    (hout : ∀ j, j < q → out j = b j) :
    ∀ j, j < q + bl → ByteCopy out q (q - dist) bl j = b j := by
  intro j hj
  rcases Nat.lt_or_ge j q with hjq | hjq
  · rw [byteCopy_out out q (q - dist) bl j (Or.inl hjq)]
    exact hout j hjq
  · have hper := byteCopy_periodic out (q - dist) dist bl (j - q) (by omega)
    have e1 : q - dist + dist = q := by omega
    rw [e1] at hper
    have e2 : q + (j - q) = j := by omega
    rw [e2] at hper
    rw [hper]
    have hlt : q - dist + (j - q) % dist < q := by
      have := Nat.mod_lt (j - q) (show 0 < dist by omega)
      omega
    rw [hout _ hlt]
    have hmp := match_periodic b q dist bl hd1 hdq hby (j - q) (by omega)
    rw [← hmp, e2]

/-- The match half of the decoder, entered with a tag carrying the
length nibble and distance bit of a valid match and the length varint
and 16-bit distance of the token at `ip`: all checks pass, the cursors
advance over exactly the token bytes and the match length, and the
output now agrees with the input up to `q + bl`. -/
theorem matchPhase_decodes (b cm out : Mem) (n q bl dist ip tag : Nat)
    (hn : n < 4294967296)
    (hbl : MIN_MATCH ≤ bl) (hd1 : 1 ≤ dist) (hdq : dist ≤ q) (hdw : dist < 131072)
    (hqbl : q + bl ≤ n)
    (hby : ∀ j, j < bl → b (q - dist + j) = b (q + j))
    (hout : ∀ j, j < q → out j = b j)
    (htag15 : tag &&& 15 = min (bl - MIN_MATCH) 15)
    (htag16 : tag &&& 16 = (dist >>> 12) &&& 16)
    (hcm : HasBytes cm ip
      ((if 15 ≤ bl - MIN_MATCH then EncodeMod (bl - MIN_MATCH - 15) else []) ++
        [dist % 256, dist / 256 % 256])) :
    ∃ out3, MatchPhase cm n tag ip q out =
        DStep.next ⟨ip + (if 15 ≤ bl - MIN_MATCH then
          (EncodeMod (bl - MIN_MATCH - 15)).length else 0) + 2, q + bl, out3⟩ ∧
      ∀ j, j < q + bl → out3 j = b j := by
  have hM : MIN_MATCH = 4 := rfl
  by_cases h15 : 15 ≤ bl - MIN_MATCH
  · rw [if_pos h15] at hcm ⊢
    rw [hasBytes_append] at hcm
    obtain ⟨hcL, hcD⟩ := hcm
    rw [hasBytes_cons, hasBytes_cons] at hcD
    obtain ⟨hd0, hd1b, _⟩ := hcD
    have hDM := decodeMod_encodeMod (bl - MIN_MATCH - 15) (by omega) cm ip hcL
    simp only [MatchPhase]
    rw [htag15, Nat.min_eq_right h15, hDM]
    dsimp only
    rw [if_pos rfl, if_pos rfl]
    have hlen : (15 + MIN_MATCH + (bl - MIN_MATCH - 15)) % 4294967296 = bl := by
      have h4 := hM
      omega
    rw [hlen]
    rw [if_neg (show ¬((n : Int) - (q : Int) < (bl : Int)) by omega)]
    have hload : UnalignedLoad16 cm (ip + (EncodeMod (bl - MIN_MATCH - 15)).length) =
        dist % 256 + 256 * (dist / 256 % 256) := by
      simp only [UnalignedLoad16]
      rw [hd0, hd1b]
    have hdist : ((tag &&& 16) <<< 12) +
        UnalignedLoad16 cm (ip + (EncodeMod (bl - MIN_MATCH - 15)).length) = dist := by
      rw [htag16, hload]
      exact dist_reconstruct dist hdw
    rw [hdist]
    rw [if_neg (show ¬(q < dist) by omega)]
    by_cases hd4 : 4 ≤ dist
    · rw [if_pos hd4]
      exact ⟨WildCopy out q (q - dist) bl, rfl,
        wildMatch_correct b out q dist bl hd4 hd1 hdq hby hout⟩
    · rw [if_neg hd4]
      exact ⟨ByteCopy out q (q - dist) bl, rfl,
        byteMatch_correct b out q dist bl hd1 hdq hby hout⟩
  · rw [if_neg h15] at hcm ⊢
    rw [List.nil_append] at hcm
    rw [hasBytes_cons, hasBytes_cons] at hcm
    obtain ⟨hd0, hd1b, _⟩ := hcm
    simp only [MatchPhase]
    rw [htag15, Nat.min_eq_left (by omega)]
    have hcond : ¬(bl - MIN_MATCH + MIN_MATCH = 15 + MIN_MATCH) := by
      have h4 := hM
      omega
    rw [if_neg hcond, if_neg hcond]
    have hlen : bl - MIN_MATCH + MIN_MATCH = bl := by
      have h4 := hM
      omega
    rw [hlen]
    rw [if_neg (show ¬((n : Int) - (q : Int) < (bl : Int)) by omega)]
    have hload : UnalignedLoad16 cm ip = dist % 256 + 256 * (dist / 256 % 256) := by
      simp only [UnalignedLoad16]
      rw [hd0, hd1b]
    have hdist : ((tag &&& 16) <<< 12) + UnalignedLoad16 cm ip = dist := by
      rw [htag16, hload]
      exact dist_reconstruct dist hdw
    rw [hdist]
    rw [if_neg (show ¬(q < dist) by omega)]
    by_cases hd4 : 4 ≤ dist
    · rw [if_pos hd4]
      exact ⟨WildCopy out q (q - dist) bl, rfl,
        wildMatch_correct b out q dist bl hd4 hd1 hdq hby hout⟩
    · rw [if_neg hd4]
      exact ⟨ByteCopy out q (q - dist) bl, rfl,
        byteMatch_correct b out q dist bl hd1 hdq hby hout⟩

/-- The literal wild copy from the compressed stream reproduces the
input bytes of the run and preserves the output below the cursor. -/
theorem literal_correct (b cm out : Mem) (q run ip2 : Nat)
    (hout : ∀ j, j < q → out j = b j)
    (hlits : HasBytes cm ip2 (memBytes b q run)) :
    ∀ j, j < q + run → WildCopyX out cm q ip2 run j = b j := by
  intro j hj
  rcases Nat.lt_or_ge j q with hjq | hjq
  · rw [wildCopyX_out out cm q ip2 run j (Or.inl hjq)]
    exact hout j hjq
  · have e : j = q + (j - q) := by omega
    rw [e, wildCopyX_in out cm q ip2 run (j - q) (by omega)]
    have hv := hlits (j - q) (by rw [memBytes_length]; omega)
    rw [hv, memBytes_getD b run q (j - q) (by omega)]

/-- The loop exits as soon as the input cursor reaches the end,
returning the output cursor. -/
theorem dloop_at_end (cm : Mem) (in_len out_len : Nat) (st : DState)
    (hip : st.ip = in_len) :
    ∀ fuel, DecompressLoop cm in_len out_len fuel st = ((st.op : Int), st.out) := by
  intro fuel
  cases fuel with
  | zero =>
    simp only [DecompressLoop]
    rw [if_pos hip]
  | succ fuel =>
    simp only [DecompressLoop]
    rw [if_neg (by omega), if_pos hip]

/-- Decoding the terminal literal-only token: the run decodes to `r`,
the checks pass, the literal copy lands the last input bytes, and the
input cursor ends exactly at the end of the stream. -/
theorem dstep_decodes_fin (b cm : Mem) (n in_len : Nat) (hn : n < 4294967296)
    (q r ip : Nat) (out : Mem) (hr : 1 ≤ r) (hqr : q + r = n)
    (hout : ∀ j, j < q → out j = b j)
    (hcm : HasBytes cm ip (EncFinal (memBytes b q r)))
    (hend : ip + (EncFinal (memBytes b q r)).length = in_len) :
    ∃ out3, DecompressStep cm in_len n ⟨ip, q, out⟩ = DStep.next ⟨in_len, n, out3⟩ ∧
      ∀ j, j < n → out3 j = b j := by
  have hrn : r ≤ n := by omega
  by_cases h7 : 7 ≤ r
  · have hEF : EncFinal (memBytes b q r) =
        ((7 <<< 5) :: EncodeMod (r - 7)) ++ memBytes b q r := by
      simp only [EncFinal, memBytes_length]
      rw [if_pos h7]
    rw [hEF] at hcm hend
    rw [hasBytes_append, hasBytes_cons] at hcm
    obtain ⟨⟨htag, hEr⟩, hlits⟩ := hcm
    simp only [List.length_append, List.length_cons, memBytes_length] at hend
    have hDM := decodeMod_encodeMod (r - 7) (by omega) cm (ip + 1) hEr
    simp only [DecompressStep]
    rw [htag, shift75]
    rw [if_pos (show (32 : Nat) ≤ 224 by omega)]
    have hshr : (224 : Nat) >>> 5 = 7 := by decide
    rw [hshr, if_pos rfl, if_pos rfl, hDM]
    dsimp only
    have hrunmod : (7 + (r - 7)) % 4294967296 = r := by omega
    rw [hrunmod]
    rw [if_neg (show ¬((n : Int) - (q : Int) < (r : Int) ∨
        (in_len : Int) - ((ip + 1 + (EncodeMod (r - 7)).length : Nat) : Int) < (r : Int))
      by omega)]
    have hlits2 : HasBytes cm (ip + 1 + (EncodeMod (r - 7)).length) (memBytes b q r) := by
      have e : ip + 1 + (EncodeMod (r - 7)).length = ip + ((EncodeMod (r - 7)).length + 1) := by
        omega
      rw [e]
      exact hlits
    rw [if_pos (show in_len ≤ ip + 1 + (EncodeMod (r - 7)).length + r by omega)]
    refine ⟨WildCopyX out cm q (ip + 1 + (EncodeMod (r - 7)).length) r, ?_, ?_⟩
    · have e1 : ip + 1 + (EncodeMod (r - 7)).length + r = in_len := by omega
      have e2 : q + r = n := hqr
      rw [e1, e2]
    · intro j hj
      exact literal_correct b cm out q r _ hout hlits2 j (by omega)
  · have hEF : EncFinal (memBytes b q r) = [r <<< 5] ++ memBytes b q r := by
      simp only [EncFinal, memBytes_length]
      rw [if_neg h7]
    rw [hEF] at hcm hend
    rw [hasBytes_append, hasBytes_cons] at hcm
    obtain ⟨⟨htag, _⟩, hlits⟩ := hcm
    simp only [List.length_append, List.length_cons, List.length_nil, memBytes_length] at hend
    have hsh : r <<< 5 = r * 32 := by
      rw [Nat.shiftLeft_eq]
    simp only [DecompressStep]
    rw [htag, hsh]
    rw [if_pos (show (32 : Nat) ≤ r * 32 by omega)]
    have hshr : (r * 32) >>> 5 = r := by
      rw [Nat.shiftRight_eq_div_pow]
      show r * 32 / 32 = r
      omega
    rw [hshr]
    rw [if_neg (show ¬(r = 7) by omega), if_neg (show ¬(r = 7) by omega)]
    rw [if_neg (show ¬((n : Int) - (q : Int) < (r : Int) ∨
        (in_len : Int) - ((ip + 1 : Nat) : Int) < (r : Int)) by omega)]
    have hlits2 : HasBytes cm (ip + 1) (memBytes b q r) := by
      have e : ip + 1 = ip + List.length [r <<< 5] := by simp
      rw [e]
      exact hlits
    rw [if_pos (show in_len ≤ ip + 1 + r by omega)]
    refine ⟨WildCopyX out cm q (ip + 1) r, ?_, ?_⟩
    · have e1 : ip + 1 + r = in_len := by omega
      rw [e1, hqr]
    · intro j hj
      exact literal_correct b cm out q r _ hout hlits2 j (by omega)

theorem hasBytes_shift (m : Mem) (i i2 : Nat) (l : List Nat) (h : HasBytes m i l)
    (he : i2 = i) : HasBytes m i2 l := by
  rw [he]
  exact h

/-- The length of the optional length-varint chunk. -/
theorem lif_length (c : Prop) [Decidable c] (x : Nat) :
    ((if c then EncodeMod x else []) : List Nat).length =
      (if c then (EncodeMod x).length else 0) := by
  split <;> rfl

/-- Decoding one match token of a well-formed stream: the decoder
consumes exactly the token bytes, advances the output over the run and
the match, and the output now agrees with the input up to the new
cursor. -/
theorem dstep_decodes_tok (b cm : Mem) (n in_len : Nat) (hn : n < 4294967296)
    (q run bl dist ip : Nat) (out : Mem)
    (hbl : MIN_MATCH ≤ bl) (hd1 : 1 ≤ dist) (hdq : dist ≤ q + run) (hdw : dist < 131072)
    (hqbl : q + run + bl ≤ n)
    (hby : ∀ j, j < bl → b (q + run - dist + j) = b (q + run + j))
    (hout : ∀ j, j < q → out j = b j)
    (hcm : HasBytes cm ip (EncTok (memBytes b q run) bl dist))
    (hend : ip + (EncTok (memBytes b q run) bl dist).length ≤ in_len) :
    ∃ out3, DecompressStep cm in_len n ⟨ip, q, out⟩ =
        DStep.next ⟨ip + (EncTok (memBytes b q run) bl dist).length, q + run + bl, out3⟩ ∧
      ∀ j, j < q + run + bl → out3 j = b j := by
  have hM : MIN_MATCH = 4 := rfl
  have hb4 : (dist >>> 12) &&& 16 = 0 ∨ (dist >>> 12) &&& 16 = 16 := by
    rw [and16_eq]
    omega
  have hnib : min (bl - MIN_MATCH) 15 ≤ 15 := min_le_right _ _
  by_cases hrun0 : run = 0
  · subst hrun0
    simp only [Nat.add_zero] at hdq hqbl hby ⊢
    have hET : EncTok (memBytes b q 0) bl dist =
        [((dist >>> 12) &&& 16) + min (bl - MIN_MATCH) 15] ++
          (if 15 ≤ bl - MIN_MATCH then EncodeMod (bl - MIN_MATCH - 15) else []) ++
          [dist % 256, dist / 256 % 256] := by
      simp only [EncTok, memBytes_length]
      rw [if_neg (by omega)]
    rw [hET] at hcm hend
    rw [hasBytes_append, hasBytes_append, hasBytes_cons] at hcm
    obtain ⟨⟨⟨htag, _⟩, hL⟩, hD⟩ := hcm
    simp only [List.length_append, List.length_cons, List.length_nil] at hL hD hend
    simp only [DecompressStep]
    rw [htag]
    rw [if_neg (show ¬((32 : Nat) ≤ ((dist >>> 12) &&& 16) + min (bl - MIN_MATCH) 15) by
      omega)]
    obtain ⟨out3, hmp, hprop⟩ := matchPhase_decodes b cm out n q bl dist (ip + 1)
      (((dist >>> 12) &&& 16) + min (bl - MIN_MATCH) 15) hn hbl hd1 hdq hdw hqbl hby hout
      (by rw [and15_eq]; omega)
      (by rw [and16_eq]; omega)
      (by
        rw [hasBytes_append]
        refine ⟨hasBytes_shift cm _ _ _ hL (by omega), hasBytes_shift cm _ _ _ hD ?_⟩
        rw [lif_length]
        omega)
    have he : ip + 1 + (if 15 ≤ bl - MIN_MATCH then
        (EncodeMod (bl - MIN_MATCH - 15)).length else 0) + 2 =
        ip + (EncTok (memBytes b q 0) bl dist).length := by
      rw [hET]
      simp only [List.length_append, List.length_cons, List.length_nil, lif_length]
      omega
    rw [← he]
    exact ⟨out3, hmp, hprop⟩
  · by_cases h7 : 7 ≤ run
    · have hET : EncTok (memBytes b q run) bl dist =
          (((((7 : Nat) <<< 5) + (((dist >>> 12) &&& 16) + min (bl - MIN_MATCH) 15)) ::
              EncodeMod (run - 7)) ++ memBytes b q run) ++
            (if 15 ≤ bl - MIN_MATCH then EncodeMod (bl - MIN_MATCH - 15) else []) ++
            [dist % 256, dist / 256 % 256] := by
        simp only [EncTok, memBytes_length]
        rw [if_pos hrun0, if_pos h7]
      rw [hET] at hcm hend
      rw [hasBytes_append, hasBytes_append, hasBytes_append, hasBytes_cons] at hcm
      obtain ⟨⟨⟨⟨htag, hEr⟩, hlits⟩, hL⟩, hD⟩ := hcm
      simp only [List.length_append, List.length_cons, List.length_nil,
        memBytes_length] at hlits hL hD hend
      have hDM := decodeMod_encodeMod (run - 7) (by omega) cm (ip + 1) hEr
      simp only [DecompressStep]
      rw [htag, shift75]
      rw [if_pos (show (32 : Nat) ≤
        224 + (((dist >>> 12) &&& 16) + min (bl - MIN_MATCH) 15) by omega)]
      have hshr : (224 + (((dist >>> 12) &&& 16) + min (bl - MIN_MATCH) 15)) >>> 5 = 7 := by
        rw [Nat.shiftRight_eq_div_pow]
        show (224 + (((dist >>> 12) &&& 16) + min (bl - MIN_MATCH) 15)) / 32 = 7
        have h16 := tag_and16_le dist
        omega
      rw [hshr, if_pos rfl, if_pos rfl, hDM]
      dsimp only
      have hrunmod : (7 + (run - 7)) % 4294967296 = run := by omega
      rw [hrunmod]
      rw [if_neg (show ¬((n : Int) - (q : Int) < (run : Int) ∨
          (in_len : Int) - ((ip + 1 + (EncodeMod (run - 7)).length : Nat) : Int) < (run : Int))
        by omega)]
      rw [if_neg (show ¬(in_len ≤ ip + 1 + (EncodeMod (run - 7)).length + run) by omega)]
      have hlits2 : HasBytes cm (ip + 1 + (EncodeMod (run - 7)).length) (memBytes b q run) :=
        hasBytes_shift cm _ _ _ hlits (by omega)
      obtain ⟨out3, hmp, hprop⟩ := matchPhase_decodes b cm
        (WildCopyX out cm q (ip + 1 + (EncodeMod (run - 7)).length) run) n (q + run) bl dist
        (ip + 1 + (EncodeMod (run - 7)).length + run)
        (224 + (((dist >>> 12) &&& 16) + min (bl - MIN_MATCH) 15)) hn hbl hd1 hdq hdw hqbl hby
        (literal_correct b cm out q run _ hout hlits2)
        (by rw [and15_eq]; omega)
        (by rw [and16_eq]; omega)
        (by
          rw [hasBytes_append]
          refine ⟨hasBytes_shift cm _ _ _ hL (by omega), hasBytes_shift cm _ _ _ hD ?_⟩
          rw [lif_length]
          omega)
      have he : ip + 1 + (EncodeMod (run - 7)).length + run + (if 15 ≤ bl - MIN_MATCH then
          (EncodeMod (bl - MIN_MATCH - 15)).length else 0) + 2 =
          ip + (EncTok (memBytes b q run) bl dist).length := by
        rw [hET]
        simp only [List.length_append, List.length_cons, List.length_nil,
          memBytes_length, lif_length]
        omega
      rw [← he]
      exact ⟨out3, hmp, hprop⟩
    · have hET : EncTok (memBytes b q run) bl dist =
          ([(run <<< 5) + (((dist >>> 12) &&& 16) + min (bl - MIN_MATCH) 15)] ++
              memBytes b q run) ++
            (if 15 ≤ bl - MIN_MATCH then EncodeMod (bl - MIN_MATCH - 15) else []) ++
            [dist % 256, dist / 256 % 256] := by
        simp only [EncTok, memBytes_length]
        rw [if_pos hrun0, if_neg h7]
      rw [hET] at hcm hend
      rw [hasBytes_append, hasBytes_append, hasBytes_append, hasBytes_cons] at hcm
      obtain ⟨⟨⟨⟨htag, _⟩, hlits⟩, hL⟩, hD⟩ := hcm
      simp only [List.length_append, List.length_cons, List.length_nil,
        memBytes_length] at hlits hL hD hend
      have hsh : run <<< 5 = run * 32 := by rw [Nat.shiftLeft_eq]
      simp only [DecompressStep]
      rw [htag, hsh]
      rw [if_pos (show (32 : Nat) ≤
        run * 32 + (((dist >>> 12) &&& 16) + min (bl - MIN_MATCH) 15) by omega)]
      have hshr : (run * 32 + (((dist >>> 12) &&& 16) + min (bl - MIN_MATCH) 15)) >>> 5 =
          run := by
        rw [Nat.shiftRight_eq_div_pow]
        show (run * 32 + (((dist >>> 12) &&& 16) + min (bl - MIN_MATCH) 15)) / 32 = run
        have h16 := tag_and16_le dist
        omega
      rw [hshr, if_neg (show ¬(run = 7) by omega), if_neg (show ¬(run = 7) by omega)]
      rw [if_neg (show ¬((n : Int) - (q : Int) < (run : Int) ∨
          (in_len : Int) - ((ip + 1 : Nat) : Int) < (run : Int)) by omega)]
      rw [if_neg (show ¬(in_len ≤ ip + 1 + run) by omega)]
      have hlits2 : HasBytes cm (ip + 1) (memBytes b q run) :=
        hasBytes_shift cm _ _ _ hlits (by omega)
      obtain ⟨out3, hmp, hprop⟩ := matchPhase_decodes b cm
        (WildCopyX out cm q (ip + 1) run) n (q + run) bl dist (ip + 1 + run)
        (run * 32 + (((dist >>> 12) &&& 16) + min (bl - MIN_MATCH) 15)) hn hbl hd1 hdq hdw
        hqbl hby
        (literal_correct b cm out q run _ hout hlits2)
        (by rw [and15_eq]; omega)
        (by rw [and16_eq]; omega)
        (by
          rw [hasBytes_append]
          refine ⟨hasBytes_shift cm _ _ _ hL (by omega), hasBytes_shift cm _ _ _ hD ?_⟩
          rw [lif_length]
          omega)
      have he : ip + 1 + run + (if 15 ≤ bl - MIN_MATCH then
          (EncodeMod (bl - MIN_MATCH - 15)).length else 0) + 2 =
          ip + (EncTok (memBytes b q run) bl dist).length := by
        rw [hET]
        simp only [List.length_append, List.length_cons, List.length_nil,
          memBytes_length, lif_length]
        omega
      rw [← he]
      exact ⟨out3, hmp, hprop⟩

/-- Running the decompressor loop over the encoded bytes of any
well-formed token stream reconstructs the input: the loop returns the
full output length and the output agrees with the input everywhere
below it. -/
theorem dloop_decodes (b : Mem) (n : Nat) (hn : n < 4294967296) :
    ∀ (q : Nat) (toks : List Tok), StreamOK b n q toks →
    ∀ (cm : Mem) (in_len fuel ip : Nat) (out : Mem),
      ip + (StreamBytes b q toks).length = in_len →
      HasBytes cm ip (StreamBytes b q toks) →
      (∀ j, j < q → out j = b j) →
      (StreamBytes b q toks).length ≤ fuel →
      ∃ om, DecompressLoop cm in_len n fuel ⟨ip, q, out⟩ = ((n : Int), om) ∧
        ∀ j, j < n → om j = b j := by
  intro q toks hs
  induction hs with
  | nil =>
    intro cm in_len fuel ip out hlen hcm hout hfuel
    have h0 : (StreamBytes b n ([] : List Tok)).length = 0 := rfl
    have hip : ip = in_len := by omega
    refine ⟨out, ?_, hout⟩
    rw [dloop_at_end cm in_len n ⟨ip, n, out⟩ hip fuel]
  | fin q r hr hqr =>
    intro cm in_len fuel ip out hlen hcm hout hfuel
    have hSB : StreamBytes b q [Tok.mk r 0 0] = EncFinal (memBytes b q r) := by
      simp [StreamBytes, TokBytes]
    rw [hSB] at hlen hcm hfuel
    have hpos : 1 ≤ (EncFinal (memBytes b q r)).length := by
      simp only [EncFinal]
      split <;> simp
    cases fuel with
    | zero => omega
    | succ fuel =>
      simp only [DecompressLoop]
      rw [if_pos (show ip < in_len by omega)]
      obtain ⟨out3, hstep, hprop⟩ := dstep_decodes_fin b cm n in_len hn q r ip out hr hqr
        hout hcm hlen
      rw [hstep]
      refine ⟨out3, ?_, hprop⟩
      show DecompressLoop cm in_len n fuel ⟨in_len, n, out3⟩ = ((n : Int), out3)
      rw [dloop_at_end cm in_len n ⟨in_len, n, out3⟩ rfl fuel]
  | tok q t ts hbl hd1 hdq hdw hby hqbl htl ih =>
    intro cm in_len fuel ip out hlen hcm hout hfuel
    obtain ⟨run, bl, dist⟩ := t
    have hbl2 : MIN_MATCH ≤ bl := hbl
    have hd12 : 1 ≤ dist := hd1
    have hdq2 : dist ≤ q + run := hdq
    have hdw2 : dist < 131072 := hdw
    have hqbl2 : q + run + bl ≤ n := hqbl
    have hby2 : ∀ j, j < bl → b (q + run - dist + j) = b (q + run + j) := hby
    have ih2 : ∀ (cm : Mem) (in_len fuel ip : Nat) (out : Mem),
        ip + (StreamBytes b (q + run + bl) ts).length = in_len →
        HasBytes cm ip (StreamBytes b (q + run + bl) ts) →
        (∀ j, j < q + run + bl → out j = b j) →
        (StreamBytes b (q + run + bl) ts).length ≤ fuel →
        ∃ om, DecompressLoop cm in_len n fuel ⟨ip, q + run + bl, out⟩ = ((n : Int), om) ∧
          ∀ j, j < n → om j = b j := ih
    have hSB : StreamBytes b q (Tok.mk run bl dist :: ts) =
        EncTok (memBytes b q run) bl dist ++ StreamBytes b (q + run + bl) ts := by
      show TokBytes b q (Tok.mk run bl dist) ++
          StreamBytes b (q + run + bl) ts = _
      have hTok : TokBytes b q (Tok.mk run bl dist) =
          EncTok (memBytes b q run) bl dist := by
        simp only [TokBytes]
        have h4 : MIN_MATCH = 4 := rfl
        rw [if_neg (show ¬ bl = 0 by omega)]
      rw [hTok]
    rw [hSB] at hlen hcm hfuel
    rw [hasBytes_append] at hcm
    obtain ⟨hcm1, hcm2⟩ := hcm
    rw [List.length_append] at hlen hfuel
    have hpos : 1 ≤ (EncTok (memBytes b q run) bl dist).length := by
      simp only [EncTok, List.length_append, List.length_cons, List.length_nil]
      omega
    cases fuel with
    | zero => omega
    | succ fuel =>
      simp only [DecompressLoop]
      rw [if_pos (show ip < in_len by omega)]
      obtain ⟨out3, hstep, hprop⟩ := dstep_decodes_tok b cm n in_len hn q run bl dist ip out
        hbl2 hd12 hdq2 hdw2 hqbl2 hby2 hout hcm1 (by omega)
      rw [hstep]
      exact ih2 cm in_len fuel (ip + (EncTok (memBytes b q run) bl dist).length) out3
        (by omega) hcm2 hprop (by omega)

/-- Claim C1: for every byte sequence `b` of length `n` (small enough
for the position arithmetic of the source to stay within 32-bit signed
range) and every effort level in `[1, 9]`, decompressing the compressed
stream with declared capacity `n` returns `n` and reproduces every byte
of `b`. -/
theorem compress_roundtrip (b : Mem) (n level : Nat) (out0 dout0 : Mem) (tail0 : Nat → Int)
    (hn : n < 2147483648) (hb : ∀ i, i < n → b i < 256)
    (hL1 : 1 ≤ level) (hL9 : level ≤ 9) :
    (Decompress (Compress b n out0 level tail0).1 (Compress b n out0 level tail0).2
        dout0 n).1 = (n : Int) ∧
    ∀ j, j < n →
      (Decompress (Compress b n out0 level tail0).1 (Compress b n out0 level tail0).2
        dout0 n).2 j = b j := by
  obtain ⟨toks, hok0, hcur0, hpres, hbytes0⟩ :=
    compress_emits b n level (if level < 8 then 1 <<< level else WINDOW_SIZE) hb n
      ⟨⟨fun _ => NIL, tail0⟩, out0, 0, 0, 0⟩
      (by show n ≤ 0 + n; omega) (by show (0 : Nat) ≤ 0; omega)
      (by show (0 : Nat) ≤ n; omega) (hcsound_init tail0)
  have hok : StreamOK b n 0 toks := hok0
  have hcur : (CompressFlush b (CompressLoop b n level
      (if level < 8 then 1 <<< level else WINDOW_SIZE) n
      ⟨⟨fun _ => NIL, tail0⟩, out0, 0, 0, 0⟩)).2 =
      0 + (StreamBytes b 0 toks).length := hcur0
  have hbytes : HasBytes (CompressFlush b (CompressLoop b n level
      (if level < 8 then 1 <<< level else WINDOW_SIZE) n
      ⟨⟨fun _ => NIL, tail0⟩, out0, 0, 0, 0⟩)).1 0 (StreamBytes b 0 toks) := hbytes0
  have hc1 : (Compress b n out0 level tail0).1 =
      (CompressFlush b (CompressLoop b n level
        (if level < 8 then 1 <<< level else WINDOW_SIZE) n
        ⟨⟨fun _ => NIL, tail0⟩, out0, 0, 0, 0⟩)).1 := rfl
  have hc2 : (Compress b n out0 level tail0).2 =
      (CompressFlush b (CompressLoop b n level
        (if level < 8 then 1 <<< level else WINDOW_SIZE) n
        ⟨⟨fun _ => NIL, tail0⟩, out0, 0, 0, 0⟩)).2 := rfl
  obtain ⟨om, hloop, hom⟩ := dloop_decodes b n (by omega) 0 toks hok
    (Compress b n out0 level tail0).1 (Compress b n out0 level tail0).2
    (Compress b n out0 level tail0).2 0 dout0
    (by rw [hc2, hcur])
    (by rw [hc1]; exact hbytes)
    (by intro j hj; omega)
    (by rw [hc2, hcur]; omega)
  refine ⟨?_, ?_⟩
  · show (DecompressLoop (Compress b n out0 level tail0).1
      (Compress b n out0 level tail0).2 n (Compress b n out0 level tail0).2
      ⟨0, 0, dout0⟩).1 = (n : Int)
    rw [hloop]
  · intro j hj
    show (DecompressLoop (Compress b n out0 level tail0).1
      (Compress b n out0 level tail0).2 n (Compress b n out0 level tail0).2
      ⟨0, 0, dout0⟩).2 j = b j
    rw [hloop]
    exact hom j hj

/-- Witness for C1 at a concrete input: the 12-byte stream
`[1,2,3]*4` at level 4 round-trips. -/
theorem compress_roundtrip_witness :
    (12 : Nat) < 2147483648 ∧
    (Decompress (Compress rtIn 12 zeroMem 4 nilTail).1 (Compress rtIn 12 zeroMem 4 nilTail).2
        zeroMem 12).1 = ((12 : Nat) : Int) ∧
    (Decompress (Compress rtIn 12 zeroMem 4 nilTail).1 (Compress rtIn 12 zeroMem 4 nilTail).2
        zeroMem 12).2 5 = rtIn 5 :=
  ⟨by decide,
   (compress_roundtrip rtIn 12 4 zeroMem zeroMem nilTail (by decide)
     (by decide) (by decide) (by decide)).1,
   (compress_roundtrip rtIn 12 4 zeroMem zeroMem nilTail (by decide)
     (by decide) (by decide) (by decide)).2 5 (by decide)⟩

/-! ## Claim C7: short-match suppression -/

/-- Claim C7, amended: at every effort level, a found match of exactly
the minimum length arriving with a pending run of at least 135 is
demoted to a literal (once demoted, the lookahead guard fails too, so
this holds at level 9 as well); at effort levels up to 8 (where the
lazy lookahead is disabled) every other found match of at least the
minimum length is kept. -/
theorem c7_suppression (inm : Mem) (in_len level mc : Nat) (st : CState)
    (hmm : MIN_MATCH ≤ in_len - st.p) :
    ((FindBest inm st.hc st.p (in_len - st.p) mc).1 = MIN_MATCH ∧ 135 ≤ st.run →
      CompressStep inm in_len level mc st = LiteralStep inm st) ∧
    (level ≤ 8 →
      MIN_MATCH ≤ (FindBest inm st.hc st.p (in_len - st.p) mc).1 ∧
        ¬((FindBest inm st.hc st.p (in_len - st.p) mc).1 = MIN_MATCH ∧ 135 ≤ st.run) →
      CompressStep inm in_len level mc st =
        MatchStep inm st (FindBest inm st.hc st.p (in_len - st.p) mc).1
          (FindBest inm st.hc st.p (in_len - st.p) mc).2) := by
  have hM : MIN_MATCH = 4 := rfl
  constructor
  · rintro ⟨h1, h2⟩
    simp only [CompressStep]
    rw [if_pos hmm]
    rw [if_pos (show (FindBest inm st.hc st.p (in_len - st.p) mc).1 = MIN_MATCH ∧
      7 + 128 ≤ st.run from ⟨h1, by omega⟩)]
    rw [if_neg (show ¬(level = 9 ∧ MIN_MATCH ≤ 0 ∧ 0 < in_len - st.p) by
      rintro ⟨_, hc, _⟩; omega)]
    rw [if_neg (show ¬(MIN_MATCH ≤ 0) by omega)]
  · intro hlev
    rintro ⟨h1, h2⟩
    simp only [CompressStep]
    rw [if_pos hmm]
    rw [if_neg (show ¬((FindBest inm st.hc st.p (in_len - st.p) mc).1 = MIN_MATCH ∧
      7 + 128 ≤ st.run) from fun hc => h2 ⟨hc.1, by have := hc.2; omega⟩)]
    rw [if_neg (show ¬(level = 9 ∧
        MIN_MATCH ≤ (FindBest inm st.hc st.p (in_len - st.p) mc).1 ∧
        (FindBest inm st.hc st.p (in_len - st.p) mc).1 < in_len - st.p) by
      rintro ⟨h9, _, _⟩; omega)]
    rw [if_pos h1]

/-- Witness for the amended C7 at a concrete state of `c7In`: the
length-5 match found at position 13 is kept at level 8. -/
theorem c7_suppression_witness :
    (8 : Nat) ≤ 8 ∧ MIN_MATCH ≤ 20 - c7St.p ∧
    (MIN_MATCH ≤ (FindBest c7In c7St.hc c7St.p (20 - c7St.p) WINDOW_SIZE).1 ∧
      ¬((FindBest c7In c7St.hc c7St.p (20 - c7St.p) WINDOW_SIZE).1 = MIN_MATCH ∧
        135 ≤ c7St.run)) ∧
    CompressStep c7In 20 8 WINDOW_SIZE c7St =
      MatchStep c7In c7St (FindBest c7In c7St.hc c7St.p (20 - c7St.p) WINDOW_SIZE).1
        (FindBest c7In c7St.hc c7St.p (20 - c7St.p) WINDOW_SIZE).2 :=
  ⟨by decide, by decide, ⟨by decide, by decide⟩,
   (c7_suppression c7In 20 8 WINDOW_SIZE c7St (by decide)).2 (by decide)
     ⟨by decide, by decide⟩⟩

/-- Claim C7 counterexample: at level 9 a longer-than-minimum match is
not kept.  Compressing `c7In` at level 9 reaches position 13 with
pending run 3 after ten iterations; the match finder there finds a
length-5 match (length 5 > 4 = MIN_MATCH, run 3 < 135, so neither
suppression condition holds), yet the next iteration takes the literal
branch (position 14, run 4): the lazy lookahead discarded the match. -/
theorem c7_lookahead_counterexample :
    (CompressLoop c7In 20 9 WINDOW_SIZE 10 c7Init).p = 13 ∧
    (CompressLoop c7In 20 9 WINDOW_SIZE 10 c7Init).run = 3 ∧
    (FindBest c7In (CompressLoop c7In 20 9 WINDOW_SIZE 10 c7Init).hc 13 (20 - 13)
      WINDOW_SIZE).1 = 5 ∧
    (CompressLoop c7In 20 9 WINDOW_SIZE 11 c7Init).p = 14 ∧
    (CompressLoop c7In 20 9 WINDOW_SIZE 11 c7Init).run = 4 := by
  decide

/-! ## Claim C8: truncated streams are rejected -/

/-- Once the input cursor has passed the input end, the loop reports a
corrupt stream. -/
theorem dloop_negative (cm : Mem) (in_len out_len fuel : Nat) (st : DState)
    (hip : in_len < st.ip) : (DecompressLoop cm in_len out_len fuel st).1 < 0 := by
  cases fuel with
  | zero =>
    simp only [DecompressLoop]
    rw [if_neg (by omega)]
    norm_num
  | succ fuel =>
    simp only [DecompressLoop]
    rw [if_neg (by omega), if_neg (by omega)]
    norm_num

theorem tokBytes_pos (b : Mem) (q : Nat) (t : Tok) : 1 ≤ (TokBytes b q t).length := by
  simp only [TokBytes]
  split
  · simp only [EncFinal, List.length_append]
    split <;> simp only [List.length_cons, List.length_nil] <;> omega
  · simp only [EncTok, List.length_append, List.length_cons, List.length_nil]
    omega

theorem streamOK_nil_end (b : Mem) (n q : Nat) (h : StreamOK b n q []) : q = n := by
  cases h
  rfl

/-- The match half of the decoder on a token whose final distance byte
was cut off: every outcome is either an immediate rejection or a state
whose input cursor has moved one past the truncated end (so the loop
rejects at the next round).  Only the length varint needs to be intact;
the distance bytes are never constrained. -/
theorem matchPhase_truncated (cm out : Mem) (n q bl ip tag in_len : Nat)
    (hbl : MIN_MATCH ≤ bl) (hbn : bl < 4294967296)
    (htag15 : tag &&& 15 = min (bl - MIN_MATCH) 15)
    (hcmL : HasBytes cm ip
      ((if 15 ≤ bl - MIN_MATCH then EncodeMod (bl - MIN_MATCH - 15) else []) : List Nat))
    (hip2 : ip + (if 15 ≤ bl - MIN_MATCH then (EncodeMod (bl - MIN_MATCH - 15)).length
      else 0) + 2 = in_len + 1) :
    MatchPhase cm n tag ip q out = DStep.done (-1) out ∨
    ∃ st2, MatchPhase cm n tag ip q out = DStep.next st2 ∧ st2.ip = in_len + 1 := by
  have hM : MIN_MATCH = 4 := rfl
  by_cases h15 : 15 ≤ bl - MIN_MATCH
  · rw [if_pos h15] at hcmL hip2
    have hDM := decodeMod_encodeMod (bl - MIN_MATCH - 15) (by omega) cm ip hcmL
    simp only [MatchPhase]
    rw [htag15, Nat.min_eq_right h15, hDM]
    dsimp only
    rw [if_pos rfl, if_pos rfl]
    split
    · left; rfl
    · split
      · left; rfl
      · split
        · right
          refine ⟨_, rfl, ?_⟩
          show ip + (EncodeMod (bl - MIN_MATCH - 15)).length + 2 = in_len + 1
          omega
        · right
          refine ⟨_, rfl, ?_⟩
          show ip + (EncodeMod (bl - MIN_MATCH - 15)).length + 2 = in_len + 1
          omega
  · rw [if_neg h15] at hcmL hip2
    simp only [MatchPhase]
    rw [htag15, Nat.min_eq_left (by omega)]
    have hcond : ¬(bl - MIN_MATCH + MIN_MATCH = 15 + MIN_MATCH) := by
      have h4 := hM
      omega
    rw [if_neg hcond, if_neg hcond]
    split
    · left; rfl
    · split
      · left; rfl
      · split
        · right
          refine ⟨_, rfl, ?_⟩
          show ip + 2 = in_len + 1
          omega
        · right
          refine ⟨_, rfl, ?_⟩
          show ip + 2 = in_len + 1
          omega

/-- A decoder iteration on a match token whose final byte was cut off
either rejects outright or leaves the cursor one past the truncated
end. -/
theorem dstep_truncated_tok (b cm : Mem) (n in_len : Nat)
    (q run bl dist ip : Nat) (out : Mem)
    (hbl : MIN_MATCH ≤ bl) (hbn : bl < 4294967296) (hrn : run < 4294967296)
    (hcm : HasBytes cm ip (EncTok (memBytes b q run) bl dist))
    (hip : ip + (EncTok (memBytes b q run) bl dist).length = in_len + 1) :
    (∃ om, DecompressStep cm in_len n ⟨ip, q, out⟩ = DStep.done (-1) om) ∨
    ∃ st2, DecompressStep cm in_len n ⟨ip, q, out⟩ = DStep.next st2 ∧
      st2.ip = in_len + 1 := by
  have hM : MIN_MATCH = 4 := rfl
  have hb4 : (dist >>> 12) &&& 16 = 0 ∨ (dist >>> 12) &&& 16 = 16 := by
    rw [and16_eq]
    omega
  have hnib : min (bl - MIN_MATCH) 15 ≤ 15 := min_le_right _ _
  by_cases hrun0 : run = 0
  · subst hrun0
    have hET : EncTok (memBytes b q 0) bl dist =
        [((dist >>> 12) &&& 16) + min (bl - MIN_MATCH) 15] ++
          (if 15 ≤ bl - MIN_MATCH then EncodeMod (bl - MIN_MATCH - 15) else []) ++
          [dist % 256, dist / 256 % 256] := by
      simp only [EncTok, memBytes_length]
      rw [if_neg (by omega)]
    rw [hET] at hcm hip
    rw [hasBytes_append, hasBytes_append, hasBytes_cons] at hcm
    obtain ⟨⟨⟨htag, _⟩, hL⟩, hD⟩ := hcm
    simp only [List.length_append, List.length_cons, List.length_nil] at hL hip
    rw [lif_length] at hip
    simp only [DecompressStep]
    rw [htag]
    rw [if_neg (show ¬((32 : Nat) ≤ ((dist >>> 12) &&& 16) + min (bl - MIN_MATCH) 15) by
      omega)]
    rcases matchPhase_truncated cm out n q bl (ip + 1)
        (((dist >>> 12) &&& 16) + min (bl - MIN_MATCH) 15) in_len hbl hbn
        (by rw [and15_eq]; omega)
        (hasBytes_shift cm _ _ _ hL (by omega))
        (by omega) with hmp | ⟨st2, hmp, hip3⟩
    · exact Or.inl ⟨out, hmp⟩
    · exact Or.inr ⟨st2, hmp, hip3⟩
  · by_cases h7 : 7 ≤ run
    · have hET : EncTok (memBytes b q run) bl dist =
          (((((7 : Nat) <<< 5) + (((dist >>> 12) &&& 16) + min (bl - MIN_MATCH) 15)) ::
              EncodeMod (run - 7)) ++ memBytes b q run) ++
            (if 15 ≤ bl - MIN_MATCH then EncodeMod (bl - MIN_MATCH - 15) else []) ++
            [dist % 256, dist / 256 % 256] := by
        simp only [EncTok, memBytes_length]
        rw [if_pos hrun0, if_pos h7]
      rw [hET] at hcm hip
      rw [hasBytes_append, hasBytes_append, hasBytes_append, hasBytes_cons] at hcm
      obtain ⟨⟨⟨⟨htag, hEr⟩, _⟩, hL⟩, hD⟩ := hcm
      simp only [List.length_append, List.length_cons, List.length_nil,
        memBytes_length] at hL hip
      rw [lif_length] at hip
      have hDM := decodeMod_encodeMod (run - 7) (by omega) cm (ip + 1) hEr
      simp only [DecompressStep]
      rw [htag, shift75]
      rw [if_pos (show (32 : Nat) ≤
        224 + (((dist >>> 12) &&& 16) + min (bl - MIN_MATCH) 15) by omega)]
      have hshr : (224 + (((dist >>> 12) &&& 16) + min (bl - MIN_MATCH) 15)) >>> 5 = 7 := by
        rw [Nat.shiftRight_eq_div_pow]
        show (224 + (((dist >>> 12) &&& 16) + min (bl - MIN_MATCH) 15)) / 32 = 7
        have h16 := tag_and16_le dist
        omega
      rw [hshr, if_pos rfl, if_pos rfl, hDM]
      dsimp only
      have hrunmod : (7 + (run - 7)) % 4294967296 = run := by omega
      rw [hrunmod]
      split
      · exact Or.inl ⟨out, rfl⟩
      · rw [if_neg (show ¬(in_len ≤ ip + 1 + (EncodeMod (run - 7)).length + run) by omega)]
        rcases matchPhase_truncated cm
            (WildCopyX out cm q (ip + 1 + (EncodeMod (run - 7)).length) run) n (q + run) bl
            (ip + 1 + (EncodeMod (run - 7)).length + run)
            (224 + (((dist >>> 12) &&& 16) + min (bl - MIN_MATCH) 15)) in_len hbl hbn
            (by rw [and15_eq]; omega)
            (hasBytes_shift cm _ _ _ hL (by omega))
            (by omega) with hmp | ⟨st2, hmp, hip3⟩
        · exact Or.inl ⟨_, hmp⟩
        · exact Or.inr ⟨st2, hmp, hip3⟩
    · have hET : EncTok (memBytes b q run) bl dist =
          ([(run <<< 5) + (((dist >>> 12) &&& 16) + min (bl - MIN_MATCH) 15)] ++
              memBytes b q run) ++
            (if 15 ≤ bl - MIN_MATCH then EncodeMod (bl - MIN_MATCH - 15) else []) ++
            [dist % 256, dist / 256 % 256] := by
        simp only [EncTok, memBytes_length]
        rw [if_pos hrun0, if_neg h7]
      rw [hET] at hcm hip
      rw [hasBytes_append, hasBytes_append, hasBytes_append, hasBytes_cons] at hcm
      obtain ⟨⟨⟨⟨htag, _⟩, _⟩, hL⟩, hD⟩ := hcm
      simp only [List.length_append, List.length_cons, List.length_nil,
        memBytes_length] at hL hip
      rw [lif_length] at hip
      have hsh : run <<< 5 = run * 32 := by rw [Nat.shiftLeft_eq]
      simp only [DecompressStep]
      rw [htag, hsh]
      rw [if_pos (show (32 : Nat) ≤
        run * 32 + (((dist >>> 12) &&& 16) + min (bl - MIN_MATCH) 15) by omega)]
      have hshr : (run * 32 + (((dist >>> 12) &&& 16) + min (bl - MIN_MATCH) 15)) >>> 5 =
          run := by
        rw [Nat.shiftRight_eq_div_pow]
        show (run * 32 + (((dist >>> 12) &&& 16) + min (bl - MIN_MATCH) 15)) / 32 = run
        have h16 := tag_and16_le dist
        omega
      rw [hshr, if_neg (show ¬(run = 7) by omega), if_neg (show ¬(run = 7) by omega)]
      split
      · exact Or.inl ⟨out, rfl⟩
      · rw [if_neg (show ¬(in_len ≤ ip + 1 + run) by omega)]
        rcases matchPhase_truncated cm (WildCopyX out cm q (ip + 1) run) n (q + run) bl
            (ip + 1 + run)
            (run * 32 + (((dist >>> 12) &&& 16) + min (bl - MIN_MATCH) 15)) in_len hbl hbn
            (by rw [and15_eq]; omega)
            (hasBytes_shift cm _ _ _ hL (by omega))
            (by omega) with hmp | ⟨st2, hmp, hip3⟩
        · exact Or.inl ⟨_, hmp⟩
        · exact Or.inr ⟨st2, hmp, hip3⟩

/-- A decoder iteration on a terminal literal-only token whose final
byte was cut off fails the literal overrun check and rejects. -/
theorem dstep_truncated_fin (b cm : Mem) (n in_len : Nat)
    (q r ip : Nat) (out : Mem) (hr : 1 ≤ r) (hrn : r < 4294967296)
    (hcm : HasBytes cm ip (EncFinal (memBytes b q r)))
    (hip : ip + (EncFinal (memBytes b q r)).length = in_len + 1) :
    DecompressStep cm in_len n ⟨ip, q, out⟩ = DStep.done (-1) out := by
  by_cases h7 : 7 ≤ r
  · have hEF : EncFinal (memBytes b q r) =
        ((7 <<< 5) :: EncodeMod (r - 7)) ++ memBytes b q r := by
      simp only [EncFinal, memBytes_length]
      rw [if_pos h7]
    rw [hEF] at hcm hip
    rw [hasBytes_append, hasBytes_cons] at hcm
    obtain ⟨⟨htag, hEr⟩, _⟩ := hcm
    simp only [List.length_append, List.length_cons, memBytes_length] at hip
    have hDM := decodeMod_encodeMod (r - 7) (by omega) cm (ip + 1) hEr
    simp only [DecompressStep]
    rw [htag, shift75]
    rw [if_pos (show (32 : Nat) ≤ 224 by omega)]
    have hshr : (224 : Nat) >>> 5 = 7 := by decide
    rw [hshr, if_pos rfl, if_pos rfl, hDM]
    dsimp only
    have hrunmod : (7 + (r - 7)) % 4294967296 = r := by omega
    rw [hrunmod]
    rw [if_pos (show ((n : Int) - (q : Int) < (r : Int) ∨
        (in_len : Int) - ((ip + 1 + (EncodeMod (r - 7)).length : Nat) : Int) < (r : Int))
      from Or.inr (by omega))]
  · have hEF : EncFinal (memBytes b q r) = [r <<< 5] ++ memBytes b q r := by
      simp only [EncFinal, memBytes_length]
      rw [if_neg h7]
    rw [hEF] at hcm hip
    rw [hasBytes_append, hasBytes_cons] at hcm
    obtain ⟨⟨htag, _⟩, _⟩ := hcm
    simp only [List.length_append, List.length_cons, List.length_nil,
      memBytes_length] at hip
    have hsh : r <<< 5 = r * 32 := by rw [Nat.shiftLeft_eq]
    simp only [DecompressStep]
    rw [htag, hsh]
    rw [if_pos (show (32 : Nat) ≤ r * 32 by omega)]
    have hshr : (r * 32) >>> 5 = r := by
      rw [Nat.shiftRight_eq_div_pow]
      show r * 32 / 32 = r
      omega
    rw [hshr, if_neg (show ¬(r = 7) by omega), if_neg (show ¬(r = 7) by omega)]
    rw [if_pos (show ((n : Int) - (q : Int) < (r : Int) ∨
        (in_len : Int) - ((ip + 1 : Nat) : Int) < (r : Int)) from Or.inr (by omega))]

/-- The decoder on the encoded bytes of a well-formed stream with the
final byte cut off (the input length is one short of the stream length)
always reports a corrupt stream. -/
theorem dloop_truncated (b : Mem) (n : Nat) (hn : n < 4294967296) :
    ∀ (q : Nat) (toks : List Tok), StreamOK b n q toks →
    ∀ (cm : Mem) (in_len fuel ip : Nat) (out : Mem),
      toks ≠ [] →
      ip + (StreamBytes b q toks).length = in_len + 1 →
      HasBytes cm ip (StreamBytes b q toks) →
      (∀ j, j < q → out j = b j) →
      (StreamBytes b q toks).length ≤ fuel + 1 →
      (DecompressLoop cm in_len n fuel ⟨ip, q, out⟩).1 < 0 := by
  intro q toks hs
  induction hs with
  | nil =>
    intro cm in_len fuel ip out hne hlen hcm hout hfuel
    exact absurd rfl hne
  | fin q r hr hqr =>
    intro cm in_len fuel ip out hne hlen hcm hout hfuel
    have hSB : StreamBytes b q [Tok.mk r 0 0] = EncFinal (memBytes b q r) := by
      simp [StreamBytes, TokBytes]
    rw [hSB] at hlen hcm hfuel
    have hpos : 2 ≤ (EncFinal (memBytes b q r)).length := by
      simp only [EncFinal, List.length_append, memBytes_length]
      split <;> simp only [List.length_cons, List.length_nil] <;> omega
    cases fuel with
    | zero => omega
    | succ fuel =>
      simp only [DecompressLoop]
      rw [if_pos (show ip < in_len by omega)]
      rw [dstep_truncated_fin b cm n in_len q r ip out hr (by omega) hcm hlen]
      show (-1 : Int) < 0
      norm_num
  | tok q t ts hbl hd1 hdq hdw hby hqbl htl ih =>
    intro cm in_len fuel ip out hne hlen hcm hout hfuel
    obtain ⟨run, bl, dist⟩ := t
    have hbl2 : MIN_MATCH ≤ bl := hbl
    have hd12 : 1 ≤ dist := hd1
    have hdq2 : dist ≤ q + run := hdq
    have hdw2 : dist < 131072 := hdw
    have hqbl2 : q + run + bl ≤ n := hqbl
    have hby2 : ∀ j, j < bl → b (q + run - dist + j) = b (q + run + j) := hby
    have ih2 : ∀ (cm : Mem) (in_len fuel ip : Nat) (out : Mem),
        ts ≠ [] →
        ip + (StreamBytes b (q + run + bl) ts).length = in_len + 1 →
        HasBytes cm ip (StreamBytes b (q + run + bl) ts) →
        (∀ j, j < q + run + bl → out j = b j) →
        (StreamBytes b (q + run + bl) ts).length ≤ fuel + 1 →
        (DecompressLoop cm in_len n fuel ⟨ip, q + run + bl, out⟩).1 < 0 := ih
    have hSB : StreamBytes b q (Tok.mk run bl dist :: ts) =
        EncTok (memBytes b q run) bl dist ++ StreamBytes b (q + run + bl) ts := by
      show TokBytes b q (Tok.mk run bl dist) ++ StreamBytes b (q + run + bl) ts = _
      have h4 : MIN_MATCH = 4 := rfl
      have hTok : TokBytes b q (Tok.mk run bl dist) =
          EncTok (memBytes b q run) bl dist := by
        simp only [TokBytes]
        rw [if_neg (show ¬ bl = 0 by omega)]
      rw [hTok]
    rw [hSB] at hlen hcm hfuel
    rw [hasBytes_append] at hcm
    obtain ⟨hcm1, hcm2⟩ := hcm
    rw [List.length_append] at hlen hfuel
    have hpos : 2 ≤ (EncTok (memBytes b q run) bl dist).length := by
      simp only [EncTok, List.length_append, List.length_cons, List.length_nil]
      omega
    by_cases hts : ts = []
    · subst hts
      have hSBnil : (StreamBytes b (q + run + bl) ([] : List Tok)).length = 0 := rfl
      cases fuel with
      | zero => omega
      | succ fuel =>
        simp only [DecompressLoop]
        rw [if_pos (show ip < in_len by omega)]
        rcases dstep_truncated_tok b cm n in_len q run bl dist ip out hbl2 (by omega)
            (by omega) hcm1 (by omega) with ⟨om, hstep⟩ | ⟨st2, hstep, hip2⟩
        · rw [hstep]
          show (-1 : Int) < 0
          norm_num
        · rw [hstep]
          exact dloop_negative cm in_len n fuel st2 (by omega)
    · obtain ⟨t0, ts0, rfl⟩ := List.exists_cons_of_ne_nil hts
      have hSBpos : 1 ≤ (StreamBytes b (q + run + bl) (t0 :: ts0)).length := by
        show 1 ≤ (TokBytes b (q + run + bl) t0 ++
          StreamBytes b (q + run + bl + t0.run + t0.bl) ts0).length
        rw [List.length_append]
        have := tokBytes_pos b (q + run + bl) t0
        omega
      cases fuel with
      | zero => omega
      | succ fuel =>
        simp only [DecompressLoop]
        rw [if_pos (show ip < in_len by omega)]
        obtain ⟨out3, hstep, hprop⟩ := dstep_decodes_tok b cm n in_len hn q run bl dist ip
          out hbl2 hd12 hdq2 hdw2 hqbl2 hby2 hout hcm1 (by omega)
        rw [hstep]
        exact ih2 cm in_len fuel (ip + (EncTok (memBytes b q run) bl dist).length) out3
          (by simp) (by omega) hcm2 hprop (by omega)

/-- Claim C8: dropping the final byte of a compressed stream of a
non-empty input makes Decompress report a corrupt stream (a negative
return), at every effort level. -/
theorem truncated_stream_rejected (b : Mem) (n level : Nat) (out0 dout0 : Mem)
    (tail0 : Nat → Int) (hn1 : 1 ≤ n) (hn : n < 2147483648)
    (hb : ∀ i, i < n → b i < 256) (hL1 : 1 ≤ level) (hL9 : level ≤ 9) :
    (Decompress (Compress b n out0 level tail0).1
      ((Compress b n out0 level tail0).2 - 1) dout0 n).1 < 0 := by
  obtain ⟨toks, hok0, hcur0, hpres, hbytes0⟩ :=
    compress_emits b n level (if level < 8 then 1 <<< level else WINDOW_SIZE) hb n
      ⟨⟨fun _ => NIL, tail0⟩, out0, 0, 0, 0⟩
      (by show n ≤ 0 + n; omega) (by show (0 : Nat) ≤ 0; omega)
      (by show (0 : Nat) ≤ n; omega) (hcsound_init tail0)
  have hok : StreamOK b n 0 toks := hok0
  have hcur : (CompressFlush b (CompressLoop b n level
      (if level < 8 then 1 <<< level else WINDOW_SIZE) n
      ⟨⟨fun _ => NIL, tail0⟩, out0, 0, 0, 0⟩)).2 =
      0 + (StreamBytes b 0 toks).length := hcur0
  have hbytes : HasBytes (CompressFlush b (CompressLoop b n level
      (if level < 8 then 1 <<< level else WINDOW_SIZE) n
      ⟨⟨fun _ => NIL, tail0⟩, out0, 0, 0, 0⟩)).1 0 (StreamBytes b 0 toks) := hbytes0
  have hc1 : (Compress b n out0 level tail0).1 =
      (CompressFlush b (CompressLoop b n level
        (if level < 8 then 1 <<< level else WINDOW_SIZE) n
        ⟨⟨fun _ => NIL, tail0⟩, out0, 0, 0, 0⟩)).1 := rfl
  have hc2 : (Compress b n out0 level tail0).2 =
      (CompressFlush b (CompressLoop b n level
        (if level < 8 then 1 <<< level else WINDOW_SIZE) n
        ⟨⟨fun _ => NIL, tail0⟩, out0, 0, 0, 0⟩)).2 := rfl
  have hne : toks ≠ [] := by
    intro h
    have h0 := streamOK_nil_end b n 0 (h ▸ hok)
    omega
  obtain ⟨t0, ts0, rfl⟩ := List.exists_cons_of_ne_nil hne
  have hSBpos : 1 ≤ (StreamBytes b 0 (t0 :: ts0)).length := by
    show 1 ≤ (TokBytes b 0 t0 ++ StreamBytes b (0 + t0.run + t0.bl) ts0).length
    rw [List.length_append]
    have := tokBytes_pos b 0 t0
    omega
  have hclen : (Compress b n out0 level tail0).2 =
      (StreamBytes b 0 (t0 :: ts0)).length := by
    rw [hc2, hcur]
    omega
  show (DecompressLoop (Compress b n out0 level tail0).1
    ((Compress b n out0 level tail0).2 - 1) n ((Compress b n out0 level tail0).2 - 1)
    ⟨0, 0, dout0⟩).1 < 0
  exact dloop_truncated b n (by omega) 0 (t0 :: ts0) hok
    (Compress b n out0 level tail0).1 ((Compress b n out0 level tail0).2 - 1)
    ((Compress b n out0 level tail0).2 - 1) 0 dout0 (by simp)
    (by omega)
    (by rw [hc1]; exact hbytes)
    (by intro j hj; omega)
    (by omega)

/-- Witness for C8: the compressed stream of the 12-byte example input,
cut one byte short, is rejected. -/
theorem truncated_stream_rejected_witness :
    (1 : Nat) ≤ 12 ∧
    (Decompress (Compress rtIn 12 zeroMem 4 nilTail).1
      ((Compress rtIn 12 zeroMem 4 nilTail).2 - 1) zeroMem 12).1 < 0 :=
  ⟨by decide,
   truncated_stream_rejected rtIn 12 4 zeroMem zeroMem nilTail (by decide) (by decide)
     (by decide) (by decide) (by decide)⟩

/-! ## Claim C6: hash-chain reachability -/

theorem chainExact_init (inm : Mem) (tail0 : Nat → Int) :
    ChainExact inm ⟨fun _ => NIL, tail0⟩ 0 := by
  constructor
  · intro h
    exact ⟨fun s hs _ => by omega, Or.inl rfl⟩
  · intro s hs
    omega

theorem chainExact_insert (inm : Mem) (hc : HC) (p : Nat) (h : ChainExact inm hc p) :
    ChainExact inm (HashInsert inm hc p) (p + 1) := by
  obtain ⟨hhead, htail⟩ := h
  have hW := WINDOW_SIZE_eq
  have hN : NIL = (-1 : Int) := rfl
  constructor
  · intro b
    simp only [HashInsert]
    constructor
    · intro s hs hhash
      split
      · omega
      · rename_i hne
        have hsp : s ≠ p := by
          intro he
          subst he
          exact hne hhash.symm
        exact (hhead b).1 s (by omega) hhash
    · split
      · rename_i he
        exact Or.inr ⟨p, by omega, he.symm, rfl⟩
      · rcases (hhead b).2 with hnil | ⟨s, hs, hsh, hseq⟩
        · exact Or.inl hnil
        · exact Or.inr ⟨s, by omega, hsh, hseq⟩
  · intro s hs hwin
    simp only [HashInsert]
    by_cases hsp : s = p
    · subst hsp
      rw [if_pos rfl]
      refine ⟨fun t ht hh => (hhead (Hash32 inm s)).1 t ht hh, ?_, ?_⟩
      · rcases (hhead (Hash32 inm s)).2 with hnil | ⟨t, ht, _, hteq⟩
        · rw [hnil]
          omega
        · rw [hteq]
          omega
      · rcases (hhead (Hash32 inm s)).2 with hnil | ⟨t, ht, hth, hteq⟩
        · exact Or.inl hnil
        · exact Or.inr ⟨t, ht, hth, hteq⟩
    · have hslt : s < p := by omega
      rw [if_neg (show ¬ s % WINDOW_SIZE = p % WINDOW_SIZE by
        intro he
        rw [WINDOW_SIZE_eq] at he
        omega)]
      exact htail s hslt (by omega)

theorem chainExact_insertRange (inm : Mem) :
    ∀ k (hc : HC) (p : Nat), ChainExact inm hc p →
      ChainExact inm (InsertRange inm hc p k) (p + k) := by
  intro k
  induction k with
  | zero => intro hc p h; simpa using h
  | succ k ih =>
    intro hc p h
    have := ih (HashInsert inm hc p) (p + 1) (chainExact_insert inm hc p h)
    simp only [InsertRange]
    have e : p + (k + 1) = (p + 1) + k := by omega
    rw [e]
    exact this

theorem insertRange_append (inm : Mem) :
    ∀ k m (hc : HC) (p : Nat),
      InsertRange inm (InsertRange inm hc p k) (p + k) m = InsertRange inm hc p (k + m) := by
  intro k
  induction k with
  | zero =>
    intro m hc p
    simp only [InsertRange, Nat.add_zero, Nat.zero_add]
  | succ k ih =>
    intro m hc p
    have e : p + (k + 1) = (p + 1) + k := by omega
    have e2 : k + 1 + m = k + m + 1 := by omega
    rw [e, e2]
    show InsertRange inm (InsertRange inm (HashInsert inm hc p) (p + 1) k) (p + 1 + k) m =
      InsertRange inm (HashInsert inm hc p) (p + 1) (k + m)
    exact ih m (HashInsert inm hc p) (p + 1)

theorem matchStep_hc (inm : Mem) (st : CState) (bl dist : Nat) (hc0 : HC)
    (h : st.hc = InsertRange inm hc0 0 st.p) :
    (MatchStep inm st bl dist).hc = InsertRange inm hc0 0 (MatchStep inm st bl dist).p := by
  show InsertRange inm st.hc st.p bl = InsertRange inm hc0 0 (st.p + bl)
  rw [h]
  have h2 := insertRange_append inm st.p bl hc0 0
  rw [Nat.zero_add] at h2
  exact h2

theorem literalStep_hc (inm : Mem) (st : CState) (hc0 : HC)
    (h : st.hc = InsertRange inm hc0 0 st.p) :
    (LiteralStep inm st).hc = InsertRange inm hc0 0 (LiteralStep inm st).p := by
  show HashInsert inm st.hc st.p = InsertRange inm hc0 0 (st.p + 1)
  rw [h]
  have h2 := insertRange_append inm st.p 1 hc0 0
  rw [Nat.zero_add] at h2
  exact h2

theorem stepBranch_hc (inm : Mem) (st : CState) (hc0 : HC) (c : Prop) [Decidable c]
    (bl dist : Nat) (h : st.hc = InsertRange inm hc0 0 st.p) :
    ((if c then MatchStep inm st bl dist else LiteralStep inm st)).hc =
      InsertRange inm hc0 0
        ((if c then MatchStep inm st bl dist else LiteralStep inm st)).p := by
  split
  · exact matchStep_hc inm st bl dist hc0 h
  · exact literalStep_hc inm st hc0 h

theorem compressStep_hc (inm : Mem) (in_len level mc : Nat) (st : CState) (hc0 : HC)
    (h : st.hc = InsertRange inm hc0 0 st.p) :
    (CompressStep inm in_len level mc st).hc =
      InsertRange inm hc0 0 (CompressStep inm in_len level mc st).p := by
  simp only [CompressStep]
  exact stepBranch_hc inm st hc0 _ _ _ h

/-- Throughout the compressor loop the chain state is exactly the fold
of the insertions of all consumed positions. -/
theorem compressLoop_hc (inm : Mem) (in_len level mc : Nat) (hc0 : HC) :
    ∀ fuel (st : CState),
      st.hc = InsertRange inm hc0 0 st.p →
      (CompressLoop inm in_len level mc fuel st).hc =
        InsertRange inm hc0 0 (CompressLoop inm in_len level mc fuel st).p := by
  intro fuel
  induction fuel with
  | zero =>
    intro st h
    simpa only [CompressLoop] using h
  | succ fuel ih =>
    intro st h
    simp only [CompressLoop]
    split
    · exact ih _ (compressStep_hc inm in_len level mc st hc0 h)
    · exact h

/-- Walking an exact chain from any same-bucket element at or above `q`
visits `q` before leaving the window. -/
theorem chainSeen_reaches (inm : Mem) (hc : HC) (p : Nat) (hce : ChainExact inm hc p)
    (q : Nat) (hqp : q < p) (hwin : p < q + WINDOW_SIZE) :
    ∀ fuel (s : Nat), s < p → Hash32 inm s = Hash32 inm q → q ≤ s → s - q < fuel →
      (q : Int) ∈ ChainSeen hc.Tail ((p : Int) - (WINDOW_SIZE : Int)) ((s : Nat) : Int)
        fuel := by
  intro fuel
  induction fuel with
  | zero =>
    intro s _ _ _ h
    omega
  | succ fuel ih =>
    intro s hsp hh hqs hf
    have hW := WINDOW_SIZE_eq
    have hN : NIL = (-1 : Int) := rfl
    simp only [ChainSeen]
    rw [if_pos (show (p : Int) - (WINDOW_SIZE : Int) < ((s : Nat) : Int) by omega)]
    rcases Nat.eq_or_lt_of_le hqs with he | hlt
    · subst he
      exact List.mem_cons_self _ _
    · obtain ⟨hmax, hlt2, hex⟩ := hce.2 s hsp (by omega)
      have hq_le : (q : Int) ≤ hc.Tail (s % WINDOW_SIZE) := hmax q hlt hh.symm
      rcases hex with hnil | ⟨t, htlt, hth, hteq⟩
      · rw [hnil] at hq_le
        omega
      · have htn : ((s : Nat) : Int).toNat = s := Int.toNat_natCast s
        rw [htn, hteq]
        apply List.mem_cons_of_mem
        exact ih t (by omega) (hth.trans hh) (by omega) (by omega)

/-- Claim C6: at any point of the compression of any input (any level,
any chain budget, any iteration count), every position `q` of the
window before the current position `p` is reachable from the head of
its hash bucket by following the tail links, before the walk crosses
the window floor `p - W`: the reachability invariant is preserved by
every insertion the compressor performs. -/
theorem chain_reachability (inm : Mem) (in_len level mc fuel : Nat) (tail0 : Nat → Int)
    (out0 : Mem) (q : Nat)
    (hq : q < (CompressLoop inm in_len level mc fuel
      ⟨⟨fun _ => NIL, tail0⟩, out0, 0, 0, 0⟩).p)
    (hwin : (CompressLoop inm in_len level mc fuel
      ⟨⟨fun _ => NIL, tail0⟩, out0, 0, 0, 0⟩).p < q + WINDOW_SIZE) :
    (q : Int) ∈ ChainSeen
      (CompressLoop inm in_len level mc fuel ⟨⟨fun _ => NIL, tail0⟩, out0, 0, 0, 0⟩).hc.Tail
      (((CompressLoop inm in_len level mc fuel
          ⟨⟨fun _ => NIL, tail0⟩, out0, 0, 0, 0⟩).p : Int) - (WINDOW_SIZE : Int))
      ((CompressLoop inm in_len level mc fuel
          ⟨⟨fun _ => NIL, tail0⟩, out0, 0, 0, 0⟩).hc.Head (Hash32 inm q))
      (CompressLoop inm in_len level mc fuel ⟨⟨fun _ => NIL, tail0⟩, out0, 0, 0, 0⟩).p := by
  have hhc := compressLoop_hc inm in_len level mc ⟨fun _ => NIL, tail0⟩ fuel
    ⟨⟨fun _ => NIL, tail0⟩, out0, 0, 0, 0⟩ rfl
  set st := CompressLoop inm in_len level mc fuel ⟨⟨fun _ => NIL, tail0⟩, out0, 0, 0, 0⟩
    with hst
  have hce : ChainExact inm st.hc st.p := by
    rw [hhc]
    have := chainExact_insertRange inm st.p ⟨fun _ => NIL, tail0⟩ 0
      (chainExact_init inm tail0)
    rw [Nat.zero_add] at this
    exact this
  have hN : NIL = (-1 : Int) := rfl
  have hmax := (hce.1 (Hash32 inm q)).1 q hq rfl
  rcases (hce.1 (Hash32 inm q)).2 with hnil | ⟨s, hsp, hsh, hseq⟩
  · rw [hnil] at hmax
    omega
  · rw [hseq]
    have hqs : q ≤ s := by
      rw [hseq] at hmax
      omega
    exact chainSeen_reaches inm st.hc st.p hce q hq hwin st.p s hsp hsh hqs (by omega)

/-- Witness for C6 on the example input: during level-4 compression of
the 12-byte input, position 3 is reachable from the head of its bucket
at the final state (position 12). -/
theorem chain_reachability_witness :
    (3 : Nat) < (CompressLoop rtIn 12 4 16 12 ⟨⟨fun _ => NIL, nilTail⟩, zeroMem, 0, 0, 0⟩).p ∧
    (CompressLoop rtIn 12 4 16 12 ⟨⟨fun _ => NIL, nilTail⟩, zeroMem, 0, 0, 0⟩).p <
      3 + WINDOW_SIZE ∧
    ((3 : Nat) : Int) ∈ ChainSeen
      (CompressLoop rtIn 12 4 16 12 ⟨⟨fun _ => NIL, nilTail⟩, zeroMem, 0, 0, 0⟩).hc.Tail
      (((CompressLoop rtIn 12 4 16 12
          ⟨⟨fun _ => NIL, nilTail⟩, zeroMem, 0, 0, 0⟩).p : Int) - (WINDOW_SIZE : Int))
      ((CompressLoop rtIn 12 4 16 12
          ⟨⟨fun _ => NIL, nilTail⟩, zeroMem, 0, 0, 0⟩).hc.Head (Hash32 rtIn 3))
      (CompressLoop rtIn 12 4 16 12 ⟨⟨fun _ => NIL, nilTail⟩, zeroMem, 0, 0, 0⟩).p :=
  ⟨by decide, by decide,
   chain_reachability rtIn 12 4 16 12 nilTail zeroMem 3 (by decide) (by decide)⟩

end ULZ
